import Mathlib

/-!
Verification development for the TOON codec (Token-Oriented Object Notation).

The TypeScript sources are shallowly embedded over `List Char` (JS strings)
and an inductive `HostValue` (JS runtime values).  JS numbers are modelled
by `JsNum`: finite doubles are carried as exact rationals (IEEE rounding is
never relevant to the properties settled here), with distinguished
constructors for `-0`, `NaN` and the two infinities, mirroring the host
distinctions the code observes (`Object.is(v, -0)`, `Number.isFinite`).
Reference-level structure sharing and cycles (which inductive trees cannot
express) are modelled separately by an explicit `Heap` of numbered nodes.
-/

namespace Toon

/-- JS whitespace as used by `String.prototype.trim`, `parseInt` and
`Number()`: space, tab, line feed, carriage return, vertical tab, form
feed, no-break space and the BOM. -/
def isJsWs (c : Char) : Bool :=
  c = ' ' || c = '\t' || c = '\n' || c = '\r' || c = '\x0b' || c = '\x0c' ||
  c = ' ' || c = '﻿'

/-- JS `String.prototype.trimStart`. -/
def jsTrimStart (s : List Char) : List Char := s.dropWhile isJsWs

/-- JS `String.prototype.trimEnd`. -/
def jsTrimEnd (s : List Char) : List Char := (s.reverse.dropWhile isJsWs).reverse

/-- JS `String.prototype.trim`. -/
def jsTrim (s : List Char) : List Char := jsTrimEnd (jsTrimStart s)

/-- JS `String.prototype.startsWith` for a single-character prefix. -/
def startsWithChar (s : List Char) (c : Char) : Bool :=
  match s with
  | [] => false
  | d :: _ => d = c

/-- JS `String.prototype.startsWith` for an arbitrary needle. -/
def startsWithStr (s needle : List Char) : Bool := needle.isPrefixOf s

/-- JS `String.prototype.endsWith` for a single-character suffix. -/
def endsWithChar (s : List Char) (c : Char) : Bool :=
  match s.getLast? with
  | none => false
  | some d => d = c

/-- JS `String.prototype.indexOf(ch, from)`: first occurrence of the
character at position `≥ max from 0`, or `-1`.  The result is an `Int` so
that the JS `-1` sentinel comparisons can be carried over verbatim. -/
def jsIndexOfFromAux (l : List Char) (c : Char) (pos : Nat) : Int :=
  match l with
  | [] => -1
  | d :: rest => if d = c then Int.ofNat pos else jsIndexOfFromAux rest c (pos + 1)

/-- JS `s.indexOf(c, from)` with `Int` positions. -/
def jsIndexOfFrom (s : List Char) (c : Char) (from0 : Int) : Int :=
  let start : Nat := from0.toNat
  jsIndexOfFromAux (s.drop start) c start

/-- JS `s.indexOf(c)`. -/
def jsIndexOf (s : List Char) (c : Char) : Int := jsIndexOfFrom s c 0

/-- JS `String.prototype.slice(a, b)` with negative-index wrap-around and
clamping. -/
def jsSlice (s : List Char) (a b : Int) : List Char :=
  let len : Int := Int.ofNat s.length
  let lo : Int := if a < 0 then max (len + a) 0 else min a len
  let hi : Int := if b < 0 then max (len + b) 0 else min b len
  (s.take hi.toNat).drop lo.toNat

/-- JS `String.prototype.slice(a)` (one-argument form). -/
def jsSliceFrom (s : List Char) (a : Int) : List Char :=
  jsSlice s a (Int.ofNat s.length)

/-- JS `String.prototype.split('\n')`. -/
def splitOnNl (s : List Char) : List (List Char) :=
  match s with
  | [] => [[]]
  | c :: rest =>
    let r := splitOnNl rest
    if c = '\n' then [] :: r
    else
      match r with
      | [] => [[c]]
      | seg :: segs => (c :: seg) :: segs

/-- Decimal digits of a natural number. -/
def natDigits (n : Nat) : List Char :=
  (Nat.toDigits 10 n)

/-- JS decimal rendering of an integer (as used by `BigInt.toString` and
`String(n)` for integral numbers). -/
def intToStr (n : Int) : List Char :=
  if n < 0 then '-' :: natDigits n.natAbs else natDigits n.natAbs

/-- Value of a list of decimal digits. -/
def digitsVal (l : List Char) : Nat :=
  l.foldl (fun acc c => acc * 10 + (c.toNat - '0'.toNat)) 0

/-- JS `Number.parseInt(s, 10)`: skip leading whitespace, optional sign,
then as many decimal digits as possible; `none` (`NaN`) when no digit
follows. Trailing characters are ignored. -/
def jsParseInt (s : List Char) : Option Int :=
  let t := s.dropWhile isJsWs
  let (neg, rest) :=
    match t with
    | '-' :: r => (true, r)
    | '+' :: r => (false, r)
    | r => (false, r)
  let digs := rest.takeWhile Char.isDigit
  if digs = [] then none
  else
    let v : Int := Int.ofNat (digitsVal digs)
    some (if neg then -v else v)

/-! ## JS runtime values -/

/-- A JS `number`.  Finite doubles are carried as exact rationals; `-0`,
`NaN` and the infinities, which the code distinguishes via
`Object.is(v, -0)` / `Number.isFinite`, are separate constructors.  IEEE
rounding of decimal literals is not modelled; no claim settled here
depends on it. -/
inductive JsNum where
  | finite (q : ℚ)
  | negZero
  | nan
  | inf
  | negInf
deriving DecidableEq

/-- A JS runtime value, as the codec observes it: the JSON-ish variants,
plus the host shapes the normalizer lowers (`bigint`, `Date` — modelled by
its ISO-8601 image, `Set`, `Map` — with keys modelled by their `String(k)`
image — and `undefined`/`other` for everything normalized to `null`). -/
inductive HostValue where
  | null
  | undef
  | bool (b : Bool)
  | num (n : JsNum)
  | str (s : List Char)
  | bigint (n : Int)
  | date (iso : List Char)
  | arr (items : List HostValue)
  | set (items : List HostValue)
  | map (entries : List (List Char × HostValue))
  | obj (entries : List (List Char × HostValue))
  | other

/-- Error taxonomy of the codec, by throw site: the empty-input
`TypeError`, `SyntaxError`s, the `TypeError` of `parseBracketSegment`, the
strict-mode count `RangeError`, `ReferenceError`s, the cycle
`SerializeError`, and exhaustion of the recursion fuel of this embedding
(never reached by `serialize`/`deserialize`, whose fuel covers their
input). -/
inductive Err where
  | emptyInput
  | synErr
  | typeErr
  | countMismatch
  | refErr
  | cycleDetected
  | fuelOut
deriving DecidableEq

/-- JS property assignment `obj[k] = v` on an insertion-ordered object: an
existing key keeps its position and gets the new value, a new key is
appended. -/
def jsAssocSet {α : Type} (l : List (List Char × α)) (k : List Char) (v : α) :
    List (List Char × α) :=
  match l with
  | [] => [(k, v)]
  | (k0, v0) :: rest => if k0 = k then (k, v) :: rest else (k0, v0) :: jsAssocSet rest k v

/-- JS `Object.fromEntries`: repeated assignment in order. -/
def jsFromEntries {α : Type} (l : List (List Char × α)) : List (List Char × α) :=
  l.foldl (fun acc e => jsAssocSet acc e.1 e.2) []

/-! ## JS number parsing (`Number(string)`) -/

def isHexDig (c : Char) : Bool :=
  c.isDigit || ('a' ≤ c && c ≤ 'f') || ('A' ≤ c && c ≤ 'F')

def hexDigVal (c : Char) : Nat :=
  if c.isDigit then c.toNat - '0'.toNat
  else if 'a' ≤ c && c ≤ 'f' then c.toNat - 'a'.toNat + 10
  else c.toNat - 'A'.toNat + 10

def isOctDig (c : Char) : Bool := '0' ≤ c && c ≤ '7'

def isBinDig (c : Char) : Bool := c = '0' || c = '1'

/-- Value of an unsigned radix literal body, `none` when empty or containing
a foreign character. -/
def parseRadixBody (radix : Nat) (isDig : Char → Bool) (val : Char → Nat)
    (l : List Char) : Option ℚ :=
  if l ≠ [] ∧ l.all isDig then some ((l.foldl (fun a c => a * radix + val c) 0 : Nat) : ℚ)
  else none

/-- Exact value of an unsigned decimal mantissa `ip.fp`. -/
def decBase (ip fp : List Char) : ℚ :=
  (digitsVal ip : ℚ) + (digitsVal fp : ℚ) / (10 : ℚ) ^ fp.length

/-- Full-match parse of an unsigned `StrDecimalLiteral` body
(`digits [. digits] [exp]`, `. digits [exp]`), `none` on any leftover. -/
def parseDecBody (l : List Char) : Option ℚ :=
  let ip := l.takeWhile Char.isDigit
  let r1 := l.dropWhile Char.isDigit
  let fr : List Char × List Char :=
    match r1 with
    | '.' :: r => (r.takeWhile Char.isDigit, r.dropWhile Char.isDigit)
    | _ => ([], r1)
  let fp := fr.1
  let r2 := fr.2
  if ip = [] ∧ fp = [] then none
  else
    match r2 with
    | [] => some (decBase ip fp)
    | c :: r =>
      if c = 'e' ∨ c = 'E' then
        let sr : Bool × List Char :=
          match r with
          | '-' :: rr => (true, rr)
          | '+' :: rr => (false, rr)
          | rr => (false, rr)
        let ed := sr.2.takeWhile Char.isDigit
        let r5 := sr.2.dropWhile Char.isDigit
        if ed = [] ∨ r5 ≠ [] then none
        else
          some (decBase ip fp *
            (10 : ℚ) ^ (if sr.1 then -(digitsVal ed : Int) else (digitsVal ed : Int)))
      else none

/-- Magnitude at which IEEE-754 doubles round to infinity: the midpoint
`2^1024 - 2^970` between the largest finite double and `2^1024` (ties
round up).  Written as a numeral so closed terms evaluate;
`dblOverflow_eq` below certifies the value. -/
def dblOverflow : ℚ := 179769313486231580793728971405303415079934132710037826936173778980444968292764750946649017977587207096330286416692887910946555547851940402630657488671505820681908902000708383676273854845817711531764475730270069855571366959622842914819860834936475292719074168444365510704342711559699508093042880177904174497792

/-- Attach sign and overflow behaviour to a parsed magnitude. -/
def finishNum (neg : Bool) (q : ℚ) : JsNum :=
  if dblOverflow ≤ q then (if neg then .negInf else .inf)
  else if neg ∧ q = 0 then .negZero
  else if neg then .finite (-q) else .finite q

/-- JS `Number(string)` (ECMA `StringToNumber`): trim, empty → `+0`,
optional sign on decimal literals and `Infinity`, unsigned hex / octal /
binary literals, everything else `NaN`. -/
def jsStringToNumber (s : List Char) : JsNum :=
  let t := jsTrim s
  if t = [] then .finite 0
  else
    let sgn : Bool × Bool × List Char :=
      match t with
      | '-' :: r => (true, true, r)
      | '+' :: r => (false, true, r)
      | r => (false, false, r)
    let neg := sgn.1
    let hasSign := sgn.2.1
    let body := sgn.2.2
    if body = ['I', 'n', 'f', 'i', 'n', 'i', 't', 'y'] then
      (if neg then .negInf else .inf)
    else
      let nonDec : Option ℚ :=
        if hasSign then none
        else
          match body with
          | '0' :: c :: r =>
            if c = 'x' ∨ c = 'X' then parseRadixBody 16 isHexDig hexDigVal r
            else if c = 'o' ∨ c = 'O' then
              parseRadixBody 8 isOctDig (fun d => d.toNat - '0'.toNat) r
            else if c = 'b' ∨ c = 'B' then
              parseRadixBody 2 isBinDig (fun d => d.toNat - '0'.toNat) r
            else none
          | _ => none
      match nonDec with
      | some q => finishNum false q
      | none =>
        match parseDecBody body with
        | some q => finishNum neg q
        | none => .nan

/-! ## validation-utils -/

def trueLit : List Char := "true".data
def falseLit : List Char := "false".data
def nullLit : List Char := "null".data

/-- Source `isBooleanOrNullLiteral`. -/
def isBooleanOrNullLiteral (token : List Char) : Bool :=
  token = trueLit || token = falseLit || token = nullLit

/-- Source `isNumericLiteral` (parser side): nonempty, no leading zero
followed by a non-dot, and `Number(token)` is finite. -/
def isNumericLiteral (token : List Char) : Bool :=
  match token with
  | [] => false
  | '0' :: c :: _ =>
    if c ≠ '.' then false
    else
      match jsStringToNumber token with
      | .finite _ => true
      | .negZero => true
      | _ => false
  | _ =>
    match jsStringToNumber token with
    | .finite _ => true
    | .negZero => true
    | _ => false

/-- Second regex of source `isNumericLike`: bare leading-zero integers,
`^0\d+$`. -/
def regexLeadZero (s : List Char) : Bool :=
  match s with
  | '0' :: rest => rest ≠ [] && rest.all Char.isDigit
  | _ => false

/-- First regex of source `isNumericLike`:
optional minus, digits, optional fraction, optional exponent,
anchored at both ends, case-insensitive `e`. -/
def regexNumLike (s : List Char) : Bool :=
  let r0 := match s with | '-' :: r => r | r => r
  let d1 := r0.takeWhile Char.isDigit
  let r1 := r0.dropWhile Char.isDigit
  if d1 = [] then false
  else
    let r2 : Option (List Char) :=
      match r1 with
      | '.' :: r =>
        if r.takeWhile Char.isDigit = [] then none
        else some (r.dropWhile Char.isDigit)
      | _ => some r1
    match r2 with
    | none => false
    | some [] => true
    | some (c :: r) =>
      if c = 'e' ∨ c = 'E' then
        let r3 := match r with | '+' :: rr => rr | '-' :: rr => rr | rr => rr
        r3.takeWhile Char.isDigit ≠ [] && r3.dropWhile Char.isDigit = []
      else false

/-- Source `isNumericLike` (emitter side, quoting decisions). -/
def isNumericLike (s : List Char) : Bool :=
  regexNumLike s || regexLeadZero s

/-- Source `isValidUnquotedKey`: matches `[A-Za-z_][A-Za-z0-9_.]*`. -/
def isValidUnquotedKey (k : List Char) : Bool :=
  match k with
  | [] => false
  | c :: rest => (c.isAlpha || c = '_') && rest.all (fun d => d.isAlphanum || d = '_' || d = '.')

/-- Source `isSafeUnquoted`: whether a string value may be emitted bare. -/
def isSafeUnquoted (value : List Char) (delimiter : Char) : Bool :=
  if value = [] then false
  else if value ≠ jsTrim value then false
  else if isBooleanOrNullLiteral value || isNumericLike value then false
  else if value.contains ':' then false
  else if value.contains '"' || value.contains '\\' then false
  else if value.any (fun c => c = '[' || c = ']' || c = '{' || c = '}') then false
  else if value.any (fun c => c = '\n' || c = '\r' || c = '\t') then false
  else if value.contains delimiter then false
  else if startsWithChar value '-' then false
  else true

/-! ## string-utils -/

/-- One global single-character `String.prototype.replace(/c/g, repl)`. -/
def replaceChar (c : Char) (repl : List Char) : List Char → List Char
  | [] => []
  | x :: rest => (if x = c then repl else [x]) ++ replaceChar c repl rest

/-- Source `escapeString`: the five global replaces, backslash first. -/
def escapeString (value : List Char) : List Char :=
  replaceChar '\t' ['\\', 't']
    (replaceChar '\r' ['\\', 'r']
      (replaceChar '\n' ['\\', 'n']
        (replaceChar '"' ['\\', '"']
          (replaceChar '\\' ['\\', '\\'] value))))

/-- Per-character image of `escapeString` (the five sequential global
replaces act independently on each character; `escapeString_cons` below
certifies this). -/
def escUnit (c : Char) : List Char :=
  if c = '\\' then ['\\', '\\']
  else if c = '"' then ['\\', '"']
  else if c = '\n' then ['\\', 'n']
  else if c = '\r' then ['\\', 'r']
  else if c = '\t' then ['\\', 't']
  else [c]

/-- Source `unescapeString`: accepts exactly the five escape sequences,
anything else (including a trailing backslash) is a syntax error. -/
def unescapeString : List Char → Except Err (List Char)
  | [] => .ok []
  | c :: rest =>
    if c = '\\' then
      match rest with
      | [] => .error .synErr
      | d :: rest2 =>
        if d = 'n' then (unescapeString rest2).map (fun r => '\n' :: r)
        else if d = 't' then (unescapeString rest2).map (fun r => '\t' :: r)
        else if d = 'r' then (unescapeString rest2).map (fun r => '\r' :: r)
        else if d = '\\' then (unescapeString rest2).map (fun r => '\\' :: r)
        else if d = '"' then (unescapeString rest2).map (fun r => '"' :: r)
        else .error .synErr
    else (unescapeString rest).map (fun r => c :: r)

/-- Scan of source `findClosingQuote` over the characters after the
opening quote, carrying the absolute position; a backslash with a
successor consumes the following character unconditionally (a final
backslash just runs the scan off the end). -/
def fcqAux : List Char → Nat → Int
  | [], _ => -1
  | c :: rest, pos =>
    if c = '\\' then
      match rest with
      | [] => -1
      | _ :: rest2 => fcqAux rest2 (pos + 2)
    else if c = '"' then Int.ofNat pos
    else fcqAux rest (pos + 1)

/-- Source `findClosingQuote`: index of the closing quote of the quoted
token opening at `start`, honoring escapes; `-1` when unterminated. -/
def findClosingQuote (content : List Char) (start : Nat) : Int :=
  fcqAux (content.drop (start + 1)) (start + 1)

/-- Scan of source `findUnquotedChar`, carrying position and quote state. -/
def fuqAux (target : Char) : List Char → Nat → Bool → Int
  | [], _, _ => -1
  | c :: rest, pos, inQ =>
    if c = '\\' && !rest.isEmpty && inQ then
      match rest with
      | _ :: rest2 => fuqAux target rest2 (pos + 2) inQ
      | [] => -1
    else if c = '"' then fuqAux target rest (pos + 1) !inQ
    else if c = target && !inQ then Int.ofNat pos
    else fuqAux target rest (pos + 1) inQ

/-- Source `findUnquotedChar`: first occurrence of a character outside any
quoted span (always called with `start = 0`). -/
def findUnquotedChar (content : List Char) (c : Char) : Int :=
  fuqAux c content 0 false

/-! ## Normalizer (source `normalizeValue`) -/

/-- JS `Number.MAX_SAFE_INTEGER`. -/
def maxSafeInteger : Int := 2 ^ 53 - 1

mutual

/-- Source `normalizeValue`: coerce a host value into the JSON data
model.  `-0 → 0`, non-finite numbers → `null`, safe-range bigints →
number (exact) and others → decimal string, dates → ISO string, sets →
arrays, maps → objects via `Object.fromEntries`, plain objects
recursively, anything else → `null`. -/
def normalizeValue : HostValue → HostValue
  | .null => .null
  | .str s => .str s
  | .bool b => .bool b
  | .num n =>
    match n with
    | .negZero => .num (.finite 0)
    | .nan => .null
    | .inf => .null
    | .negInf => .null
    | .finite q => .num (.finite q)
  | .bigint n =>
    if -maxSafeInteger ≤ n ∧ n ≤ maxSafeInteger then .num (.finite (n : ℚ))
    else .str (intToStr n)
  | .date iso => .str iso
  | .arr items => .arr (normalizeList items)
  | .set items => .arr (normalizeList items)
  | .map entries => .obj (jsFromEntries (normalizeEntries entries))
  | .obj entries => .obj (normalizeEntries entries)
  | .undef => .null
  | .other => .null

/-- Elementwise normalization of array / set members (`value.map(normalizeValue)`). -/
def normalizeList : List HostValue → List HostValue
  | [] => []
  | v :: rest => normalizeValue v :: normalizeList rest

/-- Entrywise normalization of object / map entries. -/
def normalizeEntries : List (List Char × HostValue) → List (List Char × HostValue)
  | [] => []
  | (k, v) :: rest => (k, normalizeValue v) :: normalizeEntries rest

end

/-! ## Cycle guard on tree values (source `hasCircularReference`)

The JS function walks object references with an on-stack `WeakSet`.  In
this tree embedding every node is a fresh reference, so the membership
test — modelled here by structural equality, which over-approximates
reference identity — can only compare a node against its strict
ancestors.  The reference-graph behaviour of the same algorithm, where
cycles actually exist, is modelled on `Heap` below. -/

mutual

/-- Structural equality test on host values. -/
def hvBeq : HostValue → HostValue → Bool
  | .null, .null => true
  | .undef, .undef => true
  | .bool a, .bool b => a = b
  | .num a, .num b => a = b
  | .str a, .str b => a = b
  | .bigint a, .bigint b => a = b
  | .date a, .date b => a = b
  | .arr a, .arr b => hvBeqList a b
  | .set a, .set b => hvBeqList a b
  | .map a, .map b => hvBeqEntries a b
  | .obj a, .obj b => hvBeqEntries a b
  | .other, .other => true
  | _, _ => false

def hvBeqList : List HostValue → List HostValue → Bool
  | [], [] => true
  | a :: as0, b :: bs => hvBeq a b && hvBeqList as0 bs
  | _, _ => false

def hvBeqEntries : List (List Char × HostValue) → List (List Char × HostValue) → Bool
  | [], [] => true
  | (ka, va) :: as0, (kb, vb) :: bs => ka = kb && hvBeq va vb && hvBeqEntries as0 bs
  | _, _ => false

end

/-- Whether `typeof v === 'object' && v !== null` holds. -/
def isJsObjectType : HostValue → Bool
  | .arr _ => true
  | .obj _ => true
  | .map _ => true
  | .set _ => true
  | .date _ => true
  | _ => false

mutual

/-- The recursive `check` of source `hasCircularReference`: non-objects
are never circular; an object already on the stack is; otherwise its
array elements / own enumerable property values are checked with the
node pushed (and popped on return, which the scoped `seen` argument
models).  `Map`/`Set`/`Date` instances have no own enumerable
properties, so only the stack membership test applies to them. -/
def hccValue (seen : List HostValue) : HostValue → Bool
  | .arr l => if seen.any (hvBeq (.arr l)) then true else hccChildren (.arr l :: seen) l
  | .obj es => if seen.any (hvBeq (.obj es)) then true else hccEntries (.obj es :: seen) es
  | .map es => seen.any (hvBeq (.map es))
  | .set l => seen.any (hvBeq (.set l))
  | .date d => seen.any (hvBeq (.date d))
  | _ => false

def hccChildren (seen : List HostValue) : List HostValue → Bool
  | [] => false
  | c :: rest => hccValue seen c || hccChildren seen rest

def hccEntries (seen : List HostValue) : List (List Char × HostValue) → Bool
  | [] => false
  | (_, v) :: rest => hccValue seen v || hccEntries seen rest

end

/-- Source `hasCircularReference` applied to a tree value. -/
def hasCircularReference (v : HostValue) : Bool := hccValue [] v

/-! ## Encoder (source encode.ts) -/

/-- Public `EncodeOptions` (only `delimiter` is read by the core). -/
structure EncodeOptions where
  delimiter : Option Char

/-- Resolved encoder options (source `resolveOptions`): indent 2, default
comma delimiter, `lengthMarker` fixed `false`. -/
structure REncOpts where
  indent : Nat
  delimiter : Char
  lengthMarker : Bool

def resolveOptions (options : Option EncodeOptions) : REncOpts :=
  ⟨2, ((options.bind (fun o => o.delimiter)).getD ','), false⟩

/-- Source `isJsonPrimitive`. -/
def isJsonPrimitive : HostValue → Bool
  | .null => true
  | .str _ => true
  | .num _ => true
  | .bool _ => true
  | _ => false

/-- Source `isJsonArray`. -/
def isJsonArray : HostValue → Bool
  | .arr _ => true
  | _ => false

/-- Source `isJsonObject`: non-null, `typeof 'object'`, not an array. -/
def isJsonObject : HostValue → Bool
  | .obj _ => true
  | .map _ => true
  | .set _ => true
  | .date _ => true
  | _ => false

def arrItems : HostValue → List HostValue
  | .arr l => l
  | _ => []

/-- Own enumerable string-keyed entries (`Object.keys` / property reads):
only plain objects have them among the object-typed variants. -/
def hostEntries : HostValue → List (List Char × HostValue)
  | .obj es => es
  | _ => []

def hostKeys (v : HostValue) : List (List Char) := (hostEntries v).map (fun e => e.1)

/-- JS property read `row[key]` (`undefined` when absent). -/
def assocGet (entries : List (List Char × HostValue)) (k : List Char) : HostValue :=
  match entries with
  | [] => .undef
  | (k0, v) :: rest => if k0 = k then v else assocGet rest k

def hostGet (v : HostValue) (k : List Char) : HostValue := assocGet (hostEntries v) k

/-- JS `key in row` for own keys. -/
def hostHasKey (v : HostValue) (k : List Char) : Bool :=
  (hostKeys v).any (fun k0 => k0 = k)

def isArrayOfPrimitives (l : List HostValue) : Bool := l.all isJsonPrimitive

def isArrayOfArrays (l : List HostValue) : Bool := l.all isJsonArray

def isArrayOfObjects (l : List HostValue) : Bool := l.all isJsonObject

/-- Shortest-form decimal rendering of a rational, matching JS
`String(number)` on integers and terminating decimal fractions — the only
numbers this development ever feeds to the emitter.  (The JS
shortest-round-trip algorithm for arbitrary doubles is not modelled.) -/
def qToDecimalString (q : ℚ) : List Char :=
  if q.den = 1 then intToStr q.num
  else
    match (List.range 64).find? (fun k => (q * (10 : ℚ) ^ (k + 1)).den = 1) with
    | some k0 =>
      let k := k0 + 1
      let m : Nat := ((|q|) * (10 : ℚ) ^ k).num.natAbs
      let ip := m / 10 ^ k
      let fr := m % 10 ^ k
      let frDigits := natDigits fr
      (if q < 0 then ['-'] else []) ++ natDigits ip ++ ['.'] ++
        List.replicate (k - frDigits.length) '0' ++ frDigits
    | none => intToStr q.num

/-- JS `String(n)` for a number. -/
def jsNumToString : JsNum → List Char
  | .finite q => qToDecimalString q
  | .negZero => ['0']
  | .nan => "NaN".data
  | .inf => "Infinity".data
  | .negInf => "-Infinity".data

/-- Source `encodeStringLiteral`: bare iff `isSafeUnquoted`, otherwise
quoted-and-escaped. -/
def encodeStringLiteral (value : List Char) (delimiter : Char) : List Char :=
  if isSafeUnquoted value delimiter then value
  else '"' :: escapeString value ++ ['"']

/-- Source `encodeKey`. -/
def encodeKey (key : List Char) : List Char :=
  if isValidUnquotedKey key then key
  else '"' :: escapeString key ++ ['"']

/-- Source `encodePrimitive`.  Non-primitive inputs are unreachable behind
the `isJsonPrimitive` guards at every call site. -/
def encodePrimitive (value : HostValue) (delimiter : Char) : List Char :=
  match value with
  | .null => nullLit
  | .bool b => if b then trueLit else falseLit
  | .num n => jsNumToString n
  | .str s => encodeStringLiteral s delimiter
  | _ => []

def joinWith (delim : Char) (l : List (List Char)) : List Char :=
  (l.intersperse [delim]).flatten

/-- Source `encodeAndJoinPrimitives`. -/
def encodeAndJoinPrimitives (values : List HostValue) (delimiter : Char) : List Char :=
  joinWith delimiter (values.map (fun v => encodePrimitive v delimiter))

/-- Source `formatHeader`: `[key]«[N[delim-hint]]»[{fields}]:`. -/
def formatHeader (length : Nat) (key : Option (List Char))
    (fields : Option (List (List Char))) (delimiter : Char) (lengthMarker : Bool) :
    List Char :=
  let h1 : List Char :=
    match key with
    | some k => if k = [] then [] else encodeKey k
    | none => []
  let h2 := h1 ++ ['['] ++ (if lengthMarker then ['#'] else []) ++ natDigits length ++
    (if delimiter ≠ ',' then [delimiter] else []) ++ [']']
  let h3 : List Char :=
    match fields with
    | some fs => h2 ++ ['{'] ++ joinWith delimiter (fs.map encodeKey) ++ ['}']
    | none => h2
  h3 ++ [':']

/-- The `LineWriter`: its accumulated lines. -/
abbrev Writer := List (List Char)

/-- `LineWriter.push`. -/
def pushLine (indentSize depth : Nat) (content : List Char) (w : Writer) : Writer :=
  w ++ [List.replicate (indentSize * depth) ' ' ++ content]

/-- The `'- '` list-item lead. -/
def listItemLead : List Char := ['-', ' ']

/-- `LineWriter.pushListItem`. -/
def pushItemLine (indentSize depth : Nat) (content : List Char) (w : Writer) : Writer :=
  pushLine indentSize depth (listItemLead ++ content) w

/-- Source `encodeInlineArrayLine`. -/
def encodeInlineArrayLine (values : List HostValue) (delimiter : Char)
    (prefixKey : Option (List Char)) (lengthMarker : Bool) : List Char :=
  let header := formatHeader values.length prefixKey none delimiter lengthMarker
  if values.length = 0 then header
  else header ++ [' '] ++ encodeAndJoinPrimitives values delimiter

/-- Source `encodeArrayOfArraysAsListItems`. -/
def encodeArrayOfArraysAsListItems (prefixKey : Option (List Char))
    (values : List HostValue) (w : Writer) (depth : Nat) (opts : REncOpts) : Writer :=
  let w1 := pushLine opts.indent depth
    (formatHeader values.length prefixKey none opts.delimiter opts.lengthMarker) w
  values.foldl
    (fun acc arr =>
      if isArrayOfPrimitives (arrItems arr) then
        pushItemLine opts.indent (depth + 1)
          (encodeInlineArrayLine (arrItems arr) opts.delimiter none opts.lengthMarker) acc
      else acc)
    w1

/-- Source `isTabularArray`. -/
def isTabularArray (rows : List HostValue) (header : List (List Char)) : Bool :=
  rows.all (fun row =>
    (hostKeys row).length = header.length &&
    header.all (fun k => hostHasKey row k && isJsonPrimitive (hostGet row k)))

/-- Source `extractTabularHeader`: the first row's key order, when every
row has exactly those keys with primitive values. -/
def extractTabularHeader (rows : List HostValue) : Option (List (List Char)) :=
  match rows with
  | [] => none
  | first :: _ =>
    let firstKeys := hostKeys first
    if firstKeys = [] then none
    else if isTabularArray rows firstKeys then some firstKeys
    else none

/-- Source `writeTabularRows`. -/
def writeTabularRows (rows : List HostValue) (header : List (List Char))
    (w : Writer) (depth : Nat) (opts : REncOpts) : Writer :=
  rows.foldl
    (fun acc row =>
      pushLine opts.indent depth
        (encodeAndJoinPrimitives (header.map (fun k => hostGet row k)) opts.delimiter) acc)
    w

/-- Source `encodeArrayOfObjectsAsTabular`. -/
def encodeArrayOfObjectsAsTabular (prefixKey : Option (List Char))
    (rows : List HostValue) (header : List (List Char)) (w : Writer) (depth : Nat)
    (opts : REncOpts) : Writer :=
  let w1 := pushLine opts.indent depth
    (formatHeader rows.length prefixKey (some header) opts.delimiter opts.lengthMarker) w
  writeTabularRows rows header w1 (depth + 1) opts

mutual

/-- Source `encodeObject`: members in insertion order. -/
def encodeObjectW (fuel : Nat) (entries : List (List Char × HostValue)) (w : Writer)
    (depth : Nat) (opts : REncOpts) : Writer :=
  match fuel with
  | 0 => w
  | f + 1 => entries.foldl (fun acc e => encodeKeyValuePairW f e.1 e.2 acc depth opts) w

/-- Source `encodeKeyValuePair`. -/
def encodeKeyValuePairW (fuel : Nat) (key : List Char) (value : HostValue) (w : Writer)
    (depth : Nat) (opts : REncOpts) : Writer :=
  match fuel with
  | 0 => w
  | f + 1 =>
    let encodedKey := encodeKey key
    if isJsonPrimitive value then
      pushLine opts.indent depth
        (encodedKey ++ [':', ' '] ++ encodePrimitive value opts.delimiter) w
    else if isJsonArray value then
      encodeArrayW f (some key) (arrItems value) w depth opts
    else if isJsonObject value then
      if hostKeys value = [] then pushLine opts.indent depth (encodedKey ++ [':']) w
      else
        encodeObjectW f (hostEntries value)
          (pushLine opts.indent depth (encodedKey ++ [':']) w) (depth + 1) opts
    else w

/-- Source `encodeArray`: shape dispatch. -/
def encodeArrayW (fuel : Nat) (key : Option (List Char)) (value : List HostValue)
    (w : Writer) (depth : Nat) (opts : REncOpts) : Writer :=
  match fuel with
  | 0 => w
  | f + 1 =>
    if value.length = 0 then
      pushLine opts.indent depth
        (formatHeader 0 key none opts.delimiter opts.lengthMarker) w
    else if isArrayOfPrimitives value then
      pushLine opts.indent depth
        (encodeInlineArrayLine value opts.delimiter key opts.lengthMarker) w
    else if isArrayOfArrays value && value.all (fun a => isArrayOfPrimitives (arrItems a)) then
      encodeArrayOfArraysAsListItems key value w depth opts
    else if isArrayOfObjects value then
      match extractTabularHeader value with
      | some hdr => encodeArrayOfObjectsAsTabular key value hdr w depth opts
      | none => encodeMixedW f key value w depth opts
    else encodeMixedW f key value w depth opts

/-- Source `encodeMixedArrayAsListItems`. -/
def encodeMixedW (fuel : Nat) (key : Option (List Char)) (items : List HostValue)
    (w : Writer) (depth : Nat) (opts : REncOpts) : Writer :=
  match fuel with
  | 0 => w
  | f + 1 =>
    let w1 := pushLine opts.indent depth
      (formatHeader items.length key none opts.delimiter opts.lengthMarker) w
    items.foldl (fun acc it => encodeListItemValueW f it acc (depth + 1) opts) w1

/-- Source `encodeListItemValue`. -/
def encodeListItemValueW (fuel : Nat) (value : HostValue) (w : Writer) (depth : Nat)
    (opts : REncOpts) : Writer :=
  match fuel with
  | 0 => w
  | f + 1 =>
    if isJsonPrimitive value then
      pushItemLine opts.indent depth (encodePrimitive value opts.delimiter) w
    else if isJsonArray value && isArrayOfPrimitives (arrItems value) then
      pushItemLine opts.indent depth
        (encodeInlineArrayLine (arrItems value) opts.delimiter none opts.lengthMarker) w
    else if isJsonObject value then
      encodeObjectAsListItemW f value w depth opts
    else w

/-- Source `encodeObjectAsListItem`: the first key/value pair rides on the
`- ` line, remaining keys continue one level deeper. -/
def encodeObjectAsListItemW (fuel : Nat) (obj : HostValue) (w : Writer) (depth : Nat)
    (opts : REncOpts) : Writer :=
  match fuel with
  | 0 => w
  | f + 1 =>
    match hostEntries obj with
    | [] => pushLine opts.indent depth ['-'] w
    | (firstKey, firstValue) :: restEntries =>
      let encodedKey := encodeKey firstKey
      let w1 : Writer :=
        if isJsonPrimitive firstValue then
          pushItemLine opts.indent depth
            (encodedKey ++ [':', ' '] ++ encodePrimitive firstValue opts.delimiter) w
        else if isJsonArray firstValue then
          let items := arrItems firstValue
          if isArrayOfPrimitives items then
            pushItemLine opts.indent depth
              (encodeInlineArrayLine items opts.delimiter (some firstKey) opts.lengthMarker) w
          else if isArrayOfObjects items then
            match extractTabularHeader items with
            | some hdr =>
              let w2 := pushItemLine opts.indent depth
                (formatHeader items.length (some firstKey) (some hdr) opts.delimiter
                  opts.lengthMarker) w
              writeTabularRows items hdr w2 (depth + 1) opts
            | none =>
              let w2 := pushItemLine opts.indent depth
                (encodedKey ++ ['['] ++ natDigits items.length ++ [']', ':']) w
              items.foldl (fun acc it => encodeObjectAsListItemW f it acc (depth + 1) opts) w2
          else
            let w2 := pushItemLine opts.indent depth
              (encodedKey ++ ['['] ++ natDigits items.length ++ [']', ':']) w
            items.foldl (fun acc it => encodeListItemValueW f it acc (depth + 1) opts) w2
        else if isJsonObject firstValue then
          if hostKeys firstValue = [] then
            pushItemLine opts.indent depth (encodedKey ++ [':']) w
          else
            encodeObjectW f (hostEntries firstValue)
              (pushItemLine opts.indent depth (encodedKey ++ [':']) w) (depth + 2) opts
        else w
      restEntries.foldl (fun acc e => encodeKeyValuePairW f e.1 e.2 acc (depth + 1) opts) w1

end

/-- Source `encodeValue`: primitives inline, otherwise through the line
writer. -/
def encodeValue (fuel : Nat) (value : HostValue) (opts : REncOpts) : List Char :=
  if isJsonPrimitive value then encodePrimitive value opts.delimiter
  else
    let w : Writer := []
    let w :=
      if isJsonArray value then encodeArrayW fuel none (arrItems value) w 0 opts
      else if isJsonObject value then encodeObjectW fuel (hostEntries value) w 0 opts
      else w
    joinWith '\n' w

mutual

/-- Size of a host value tree (computable; the derived `sizeOf` is not). -/
def hvSize : HostValue → Nat
  | .arr l => hvSizeList l + 1
  | .set l => hvSizeList l + 1
  | .map es => hvSizeEntries es + 1
  | .obj es => hvSizeEntries es + 1
  | _ => 1

def hvSizeList : List HostValue → Nat
  | [] => 0
  | v :: rest => hvSize v + hvSizeList rest + 1

def hvSizeEntries : List (List Char × HostValue) → Nat
  | [] => 0
  | (_, v) :: rest => hvSize v + hvSizeEntries rest + 1

end

/-- Fuel covering the encoder's call depth on a value (the mutual
recursion descends the value on every call). -/
def encFuel (v : HostValue) : Nat := 4 * hvSize v + 16

/-- Source `serialize`: cycle guard, then normalize, then encode. -/
def serialize (obj : HostValue) (options : Option EncodeOptions) : Except Err (List Char) :=
  if hasCircularReference obj then .error .cycleDetected
  else
    let normalized := normalizeValue obj
    let resolvedOptions := resolveOptions options
    .ok (encodeValue (encFuel normalized) normalized resolvedOptions)

/-! ## Decoder (source decode.ts) -/

/-- Public `DecodeOptions`. -/
structure DecodeOptions where
  strict : Bool

/-- Resolved decoder options: indent fixed at 2 plus the strict flag. -/
structure RDecOpts where
  indent : Nat
  strict : Bool
deriving DecidableEq

/-- Source `ParsedLine`. -/
structure ParsedLine where
  raw : List Char
  indent : Nat
  content : List Char
  depth : Nat
  lineNumber : Nat
deriving DecidableEq

/-- Source `BlankLine`. -/
structure BlankLine where
  lineNumber : Nat
  indent : Nat
  depth : Nat
deriving DecidableEq

/-- JS `s[i]` (`charAt` through index access, `none` ≙ `undefined`). -/
def jsCharAt (s : List Char) (i : Int) : Option Char :=
  if i < 0 then none else s.get? i.toNat

/-- Loop body of source `toParsedLines`, carrying the 0-based index. -/
def processLines (indentSize : Nat) (strict : Bool) :
    List (List Char) → Nat → Except Err (List ParsedLine × List BlankLine)
  | [], _ => .ok ([], [])
  | raw :: restLines, i =>
    let lineNumber := i + 1
    let indent := (raw.takeWhile (fun c => c = ' ')).length
    let content := raw.drop indent
    if jsTrim content = [] then
      (processLines indentSize strict restLines (i + 1)).map
        (fun r => (r.1, (⟨lineNumber, indent, indent / indentSize⟩ : BlankLine) :: r.2))
    else
      let depth := indent / indentSize
      if strict then
        let wsEnd := (raw.takeWhile (fun c => c = ' ' || c = '\t')).length
        if (raw.take wsEnd).contains '\t' then .error .synErr
        else if indent > 0 ∧ indent % indentSize ≠ 0 then .error .synErr
        else
          (processLines indentSize strict restLines (i + 1)).map
            (fun r => ((⟨raw, indent, content, depth, lineNumber⟩ : ParsedLine) :: r.1, r.2))
      else
        (processLines indentSize strict restLines (i + 1)).map
          (fun r => ((⟨raw, indent, content, depth, lineNumber⟩ : ParsedLine) :: r.1, r.2))

/-- Source `toParsedLines`: split into depth-tagged lines, record blank
lines separately, and (in strict mode) reject tab indentation and indents
that are not a multiple of the indent unit. -/
def toParsedLines (source : List Char) (indentSize : Nat) (strict : Bool) :
    Except Err (List ParsedLine × List BlankLine) :=
  if jsTrim source = [] then .ok ([], [])
  else processLines indentSize strict (splitOnNl source) 0

/-- Source `assertExpectedCount`: the strict-mode count assertion
(a `RangeError` in the source). -/
def assertExpectedCount (actual : Nat) (expected : Int) (opts : RDecOpts) :
    Except Err Unit :=
  if opts.strict ∧ Int.ofNat actual ≠ expected then .error .countMismatch else .ok ()

/-- Source `isDataRow`: quote-blind `indexOf` comparisons. -/
def isDataRow (content : List Char) (delimiter : Char) : Bool :=
  let colonPos := jsIndexOf content ':'
  let delimiterPos := jsIndexOf content delimiter
  if colonPos = -1 then true
  else if delimiterPos ≠ -1 ∧ delimiterPos < colonPos then true
  else false

/-- Source `isArrayHeaderAfterHyphen`. -/
def isArrayHeaderAfterHyphen (content : List Char) : Bool :=
  startsWithChar (jsTrim content) '[' && findUnquotedChar content ':' != -1

/-- Source `isObjectFirstFieldAfterHyphen`. -/
def isObjectFirstFieldAfterHyphen (content : List Char) : Bool :=
  findUnquotedChar content ':' != -1

/-- Source `isKeyValueLine`. -/
def isKeyValueLine (line : ParsedLine) : Bool :=
  let content := line.content
  if startsWithChar content '"' then
    let closingQuoteIndex := findClosingQuote content 0
    if closingQuoteIndex = -1 then false
    else
      match jsCharAt content (closingQuoteIndex + 1) with
      | some c => c = ':'
      | none => false
  else content.contains ':'

/-- Source `parseStringLiteral`: quoted tokens must close at the final
character; bare tokens pass through trimmed. -/
def parseStringLiteral (token : List Char) : Except Err (List Char) :=
  let trimmed := jsTrim token
  if startsWithChar trimmed '"' then
    let closingQuoteIndex := findClosingQuote trimmed 0
    if closingQuoteIndex = -1 then .error .synErr
    else if closingQuoteIndex ≠ Int.ofNat trimmed.length - 1 then .error .synErr
    else unescapeString (jsSlice trimmed 1 closingQuoteIndex)
  else .ok trimmed

/-- Model of `Number.parseFloat` as used in `parsePrimitiveToken`: behind
the `isNumericLiteral` guard the token is a pure decimal literal, on which
`parseFloat` and `Number` agree. -/
def jsParseFloatNum (s : List Char) : JsNum := jsStringToNumber s

/-- Source `parsePrimitiveToken`. -/
def parsePrimitiveToken (token : List Char) : Except Err HostValue :=
  let trimmed := jsTrim token
  if trimmed = [] then .ok (.str [])
  else if startsWithChar trimmed '"' then (parseStringLiteral trimmed).map .str
  else if isBooleanOrNullLiteral trimmed then
    if trimmed = trueLit then .ok (.bool true)
    else if trimmed = falseLit then .ok (.bool false)
    else .ok .null
  else if isNumericLiteral trimmed then .ok (.num (jsParseFloatNum trimmed))
  else .ok (.str trimmed)

/-- Loop of source `parseDelimitedValues`, carrying quote state, the
current chunk and the collected values. -/
def pdvAux (delim : Char) : List Char → Bool → List Char → List (List Char) →
    List (List Char)
  | [], _, cur, vals => if cur.isEmpty && vals.isEmpty then vals else vals ++ [jsTrim cur]
  | [c], inQ, cur, vals =>
    -- a final backslash cannot take the skip branch (`i + 1 < length` fails)
    if c = '"' then pdvAux delim [] (!inQ) (cur ++ [c]) vals
    else if c = delim && !inQ then pdvAux delim [] inQ [] (vals ++ [jsTrim cur])
    else pdvAux delim [] inQ (cur ++ [c]) vals
  | c :: d :: rest, inQ, cur, vals =>
    if c = '\\' && inQ then pdvAux delim rest inQ (cur ++ [c, d]) vals
    else if c = '"' then pdvAux delim (d :: rest) (!inQ) (cur ++ [c]) vals
    else if c = delim && !inQ then pdvAux delim (d :: rest) inQ [] (vals ++ [jsTrim cur])
    else pdvAux delim (d :: rest) inQ (cur ++ [c]) vals

/-- Source `parseDelimitedValues`: split on the delimiter outside quotes,
trimming each piece. -/
def parseDelimitedValues (input : List Char) (delimiter : Char) : List (List Char) :=
  pdvAux delimiter input false [] []

/-- Source `mapRowValuesToPrimitives` (`values.map(parsePrimitiveToken)`,
first thrown error propagating). -/
def mapRowValuesToPrimitives : List (List Char) → Except Err (List HostValue)
  | [] => .ok []
  | v :: rest => do
    let p ← parsePrimitiveToken v
    let ps ← mapRowValuesToPrimitives rest
    .ok (p :: ps)

/-- Source `parseUnquotedKey`: scan to the first colon. -/
def parseUnquotedKey (content : List Char) (start : Nat) :
    Except Err (List Char × Nat) :=
  let e := jsIndexOfFrom content ':' (Int.ofNat start)
  if e = -1 then .error .synErr
  else .ok (jsTrim (jsSlice content (Int.ofNat start) e), (e + 1).toNat)

/-- Source `parseQuotedKey`. -/
def parseQuotedKey (content : List Char) (start : Nat) :
    Except Err (List Char × Nat) :=
  let closingQuoteIndex := findClosingQuote content start
  if closingQuoteIndex = -1 then .error .synErr
  else
    match unescapeString (jsSlice content (Int.ofNat start + 1) closingQuoteIndex) with
    | .error e => .error e
    | .ok key =>
      let e := closingQuoteIndex + 1
      match jsCharAt content e with
      | some c => if c = ':' then .ok (key, (e + 1).toNat) else .error .synErr
      | none => .error .synErr

/-- Source `parseKeyToken`. -/
def parseKeyToken (content : List Char) (start : Nat) :
    Except Err (List Char × Nat) :=
  if content.get? start = some '"' then parseQuotedKey content start
  else parseUnquotedKey content start

/-- Source `ArrayHeader`. -/
structure ArrayHeader where
  key : Option (List Char)
  length : Int
  delimiter : Char
  fields : Option (List (List Char))
  hasLengthMarker : Bool
deriving DecidableEq

/-- Source `parseBracketSegment`: optional `#` marker, optional trailing
delimiter hint, then `Number.parseInt(content, 10)` (a `TypeError` on
`NaN`). -/
def parseBracketSegment (seg : List Char) (defaultDelimiter : Char) :
    Except Err (Int × Char × Bool) :=
  let hasLengthMarker := startsWithChar seg '#'
  let content := if hasLengthMarker then seg.drop 1 else seg
  let dc : Char × List Char :=
    if endsWithChar content '\t' then ('\t', jsSlice content 0 (-1))
    else if endsWithChar content '|' then ('|', jsSlice content 0 (-1))
    else (defaultDelimiter, content)
  match jsParseInt dc.2 with
  | none => .error .typeErr
  | some n => .ok (n, dc.1, hasLengthMarker)

/-- The `fields.map(f => parseStringLiteral(f.trim()))` step of the header
parser (errors, unlike the bracket segment's, are not caught). -/
def mapParseStringLits : List (List Char) → Except Err (List (List Char))
  | [] => .ok []
  | f :: rest => do
    let s ← parseStringLiteral (jsTrim f)
    let ss ← mapParseStringLits rest
    .ok (s :: ss)

/-- Source `parseArrayHeaderLine`: recognize `key[N]{fields}:` headers and
return the descriptor plus the inline tail after the colon; `none` when
the line is not a header. -/
def parseArrayHeaderLine (content : List Char) (defaultDelimiter : Char) :
    Except Err (Option (ArrayHeader × Option (List Char))) :=
  if startsWithChar (jsTrimStart content) '"' then .ok none
  else
    let bracketStart := jsIndexOf content '['
    if bracketStart = -1 then .ok none
    else
      let bracketEnd := jsIndexOfFrom content ']' bracketStart
      if bracketEnd = -1 then .ok none
      else
        let braceEnd0 := bracketEnd + 1
        let braceStart := jsIndexOfFrom content '{' bracketEnd
        let braceEnd :=
          if braceStart ≠ -1 ∧ braceStart < jsIndexOfFrom content ':' bracketEnd then
            let foundBraceEnd := jsIndexOfFrom content '}' braceStart
            if foundBraceEnd ≠ -1 then foundBraceEnd + 1 else braceEnd0
          else braceEnd0
        let colonIndex := jsIndexOfFrom content ':' (max bracketEnd braceEnd)
        if colonIndex = -1 then .ok none
        else
          let key : Option (List Char) :=
            if bracketStart > 0 then some (jsTrim (jsSlice content 0 bracketStart)) else none
          let afterColon := jsTrim (jsSliceFrom content (colonIndex + 1))
          let bracketContent := jsSlice content (bracketStart + 1) braceEnd
          match parseBracketSegment bracketContent defaultDelimiter with
          | .error _ => .ok none
          | .ok (length, delimiter, hasLengthMarker) =>
            let fieldsComp : Except Err (Option (List (List Char))) :=
              if braceStart ≠ -1 ∧ braceStart < colonIndex then
                let foundBraceEnd := jsIndexOfFrom content '}' braceStart
                if foundBraceEnd ≠ -1 ∧ foundBraceEnd < colonIndex then
                  (mapParseStringLits
                    (parseDelimitedValues (jsSlice content (braceStart + 1) foundBraceEnd)
                      delimiter)).map some
                else .ok none
              else .ok none
            match fieldsComp with
            | .error e => .error e
            | .ok fields =>
              .ok (some (⟨key, length, delimiter, fields, hasLengthMarker⟩,
                if afterColon = [] then none else some afterColon))

/-- Source `decodeInlinePrimitiveArray`. -/
def decodeInlinePrimitiveArray (header : ArrayHeader) (inlineValues : List Char)
    (opts : RDecOpts) : Except Err (List HostValue) :=
  if jsTrim inlineValues = [] then
    (assertExpectedCount 0 header.length opts).map (fun _ => [])
  else do
    let primitives ← mapRowValuesToPrimitives (parseDelimitedValues inlineValues header.delimiter)
    let _ ← assertExpectedCount primitives.length header.length opts
    .ok primitives

/-- The `obj[header.fields[i]] = primitives[i]` row-object construction of
source `decodeTabularArray` (a missing primitive assigns `undefined`). -/
def buildRowObjAux (fields : List (List Char)) (primitives : List HostValue)
    (acc : List (List Char × HostValue)) : List (List Char × HostValue) :=
  match fields with
  | [] => acc
  | fkey :: frest =>
    buildRowObjAux frest (primitives.drop 1)
      (jsAssocSet acc fkey (primitives.headD .undef))

def buildRowObj (fields : List (List Char)) (primitives : List HostValue) :
    List (List Char × HostValue) :=
  buildRowObjAux fields primitives []

/-- Row-consuming loop of source `decodeTabularArray`: rows are consumed
at the row depth while fewer than `N` objects are decoded, the line does
not start with `- `, and `isDataRow` holds. -/
def decodeTabularArrayLoop (fuel : Nat) (lines : List ParsedLine) (header : ArrayHeader)
    (i : Nat) (rowDepth : Nat) (opts : RDecOpts) (acc : List HostValue) :
    Except Err (List HostValue × Nat) :=
  match fuel with
  | 0 => .error .fuelOut
  | f + 1 =>
    if Int.ofNat acc.length < header.length then
      match lines.get? i with
      | none => .ok (acc, i)
      | some line =>
        if line.depth < rowDepth then .ok (acc, i)
        else if line.depth = rowDepth then
          if !startsWithStr line.content listItemLead && isDataRow line.content header.delimiter then
            let values := parseDelimitedValues line.content header.delimiter
            match assertExpectedCount values.length
                (Int.ofNat (header.fields.getD []).length) opts with
            | .error e => .error e
            | .ok _ =>
              match mapRowValuesToPrimitives values with
              | .error e => .error e
              | .ok primitives =>
                decodeTabularArrayLoop f lines header (i + 1) rowDepth opts
                  (acc ++ [.obj (buildRowObj (header.fields.getD []) primitives)])
          else .ok (acc, i)
        else .ok (acc, i)
    else .ok (acc, i)

/-- Source `decodeTabularArray`: loop then the strict row-count assertion. -/
def decodeTabularArray (fuel : Nat) (lines : List ParsedLine) (header : ArrayHeader)
    (i : Nat) (baseDepth : Nat) (opts : RDecOpts) : Except Err (List HostValue × Nat) :=
  match decodeTabularArrayLoop fuel lines header i (baseDepth + 1) opts [] with
  | .error e => .error e
  | .ok (objects, j) =>
    (assertExpectedCount objects.length header.length opts).map (fun _ => (objects, j))

mutual

/-- Source `decodeValueFromLines`: root dispatch between a headless
array, a single-line primitive and an object body. -/
def decodeValueFromLines (fuel : Nat) (lines : List ParsedLine) (opts : RDecOpts) :
    Except Err HostValue :=
  match fuel with
  | 0 => .error .fuelOut
  | f + 1 =>
    match lines.get? 0 with
    | none => .error .refErr
    | some first =>
      if isArrayHeaderAfterHyphen first.content then
        match parseArrayHeaderLine first.content ',' with
        | .error e => .error e
        | .ok (some hi) =>
          match decodeArrayFromHeader f lines 1 hi.1 hi.2 0 opts with
          | .error e => .error e
          | .ok (vs, _) => .ok (.arr vs)
        | .ok none => decodeValueRest f lines opts first
      else decodeValueRest f lines opts first

/-- Fall-through of `decodeValueFromLines` past the root-header check. -/
def decodeValueRest (fuel : Nat) (lines : List ParsedLine) (opts : RDecOpts)
    (first : ParsedLine) : Except Err HostValue :=
  match fuel with
  | 0 => .error .fuelOut
  | f + 1 =>
    if lines.length = 1 ∧ ¬ isKeyValueLine first then
      parsePrimitiveToken (jsTrim first.content)
    else
      match decodeObjectLoop f lines 0 0 opts [] with
      | .error e => .error e
      | .ok (entries, _) => .ok (.obj entries)

/-- Loop of source `decodeObject`: consume key-value lines at the base
depth, later bindings overwriting earlier ones (`obj[key] = value`). -/
def decodeObjectLoop (fuel : Nat) (lines : List ParsedLine) (i : Nat) (baseDepth : Nat)
    (opts : RDecOpts) (acc : List (List Char × HostValue)) :
    Except Err (List (List Char × HostValue) × Nat) :=
  match fuel with
  | 0 => .error .fuelOut
  | f + 1 =>
    match lines.get? i with
    | none => .ok (acc, i)
    | some line =>
      if line.depth < baseDepth then .ok (acc, i)
      else if line.depth = baseDepth then
        match decodeKeyValue f lines (i + 1) line.content baseDepth opts with
        | .error e => .error e
        | .ok (k, v, j, _) => decodeObjectLoop f lines j baseDepth opts (jsAssocSet acc k v)
      else .ok (acc, i)

/-- Source `decodeKeyValue` (the cursor has already consumed the line
holding `content`): a keyed array header, or a key token followed by a
primitive, a nested object, or an empty object. -/
def decodeKeyValue (fuel : Nat) (lines : List ParsedLine) (i : Nat) (content : List Char)
    (baseDepth : Nat) (opts : RDecOpts) :
    Except Err (List Char × HostValue × Nat × Nat) :=
  match fuel with
  | 0 => .error .fuelOut
  | f + 1 =>
    match parseArrayHeaderLine content ',' with
    | .error e => .error e
    | .ok ho =>
      match ho with
      | some (hd, inl) =>
        match hd.key with
        | some k =>
          if k ≠ [] then
            match decodeArrayFromHeader f lines i hd inl baseDepth opts with
            | .error e => .error e
            | .ok (vs, j) => .ok (k, .arr vs, j, baseDepth + 1)
          else decodeKeyValueNoHdr f lines i content baseDepth opts
        | none => decodeKeyValueNoHdr f lines i content baseDepth opts
      | none => decodeKeyValueNoHdr f lines i content baseDepth opts

/-- The key-token path of `decodeKeyValue` (no keyed array header). -/
def decodeKeyValueNoHdr (fuel : Nat) (lines : List ParsedLine) (i : Nat)
    (content : List Char) (baseDepth : Nat) (opts : RDecOpts) :
    Except Err (List Char × HostValue × Nat × Nat) :=
  match fuel with
  | 0 => .error .fuelOut
  | f + 1 =>
    match parseKeyToken content 0 with
    | .error e => .error e
    | .ok (key, e) =>
      let rest := jsTrim (jsSliceFrom content (Int.ofNat e))
      if rest = [] then
        match lines.get? i with
        | some nextLine =>
          if nextLine.depth > baseDepth then
            match decodeObjectLoop f lines i (baseDepth + 1) opts [] with
            | .error er => .error er
            | .ok (entries, j) => .ok (key, .obj entries, j, baseDepth + 1)
          else .ok (key, .obj [], i, baseDepth + 1)
        | none => .ok (key, .obj [], i, baseDepth + 1)
      else
        match parsePrimitiveToken rest with
        | .error er => .error er
        | .ok v => .ok (key, v, i, baseDepth + 1)

/-- Source `decodeArrayFromHeader`: inline values, tabular body, or list
body. -/
def decodeArrayFromHeader (fuel : Nat) (lines : List ParsedLine) (i : Nat)
    (header : ArrayHeader) (inlineValues : Option (List Char)) (baseDepth : Nat)
    (opts : RDecOpts) : Except Err (List HostValue × Nat) :=
  match fuel with
  | 0 => .error .fuelOut
  | f + 1 =>
    match inlineValues with
    | some s => (decodeInlinePrimitiveArray header s opts).map (fun vs => (vs, i))
    | none =>
      match header.fields with
      | some fs =>
        if fs.length > 0 then decodeTabularArray f lines header i baseDepth opts
        else decodeListArray f lines header i baseDepth opts
      | none => decodeListArray f lines header i baseDepth opts

/-- Source `decodeListArray`: loop then the strict item-count assertion. -/
def decodeListArray (fuel : Nat) (lines : List ParsedLine) (header : ArrayHeader)
    (i : Nat) (baseDepth : Nat) (opts : RDecOpts) : Except Err (List HostValue × Nat) :=
  match fuel with
  | 0 => .error .fuelOut
  | f + 1 =>
    match decodeListArrayLoop f lines header i (baseDepth + 1) opts [] with
    | .error e => .error e
    | .ok (items, j) =>
      match assertExpectedCount items.length header.length opts with
      | .error e => .error e
      | .ok _ => .ok (items, j)

/-- Item-consuming loop of source `decodeListArray`: items are consumed at
the item depth while fewer than `N` have been decoded and the line starts
with `- `. -/
def decodeListArrayLoop (fuel : Nat) (lines : List ParsedLine) (header : ArrayHeader)
    (i : Nat) (itemDepth : Nat) (opts : RDecOpts) (acc : List HostValue) :
    Except Err (List HostValue × Nat) :=
  match fuel with
  | 0 => .error .fuelOut
  | f + 1 =>
    if Int.ofNat acc.length < header.length then
      match lines.get? i with
      | none => .ok (acc, i)
      | some line =>
        if line.depth < itemDepth then .ok (acc, i)
        else if line.depth = itemDepth ∧ startsWithStr line.content listItemLead then
          match decodeListItem f lines i itemDepth opts with
          | .error e => .error e
          | .ok (item, j) => decodeListArrayLoop f lines header j itemDepth opts (acc ++ [item])
        else .ok (acc, i)
    else .ok (acc, i)

/-- Source `decodeListItem`: consume the `- ` line; the remainder is an
array header, an object's first field, or a primitive. -/
def decodeListItem (fuel : Nat) (lines : List ParsedLine) (i : Nat) (baseDepth : Nat)
    (opts : RDecOpts) : Except Err (HostValue × Nat) :=
  match fuel with
  | 0 => .error .fuelOut
  | f + 1 =>
    match lines.get? i with
    | none => .error .refErr
    | some line =>
      let afterHyphen := line.content.drop 2
      if isArrayHeaderAfterHyphen afterHyphen then
        match parseArrayHeaderLine afterHyphen ',' with
        | .error e => .error e
        | .ok (some hi) =>
          match decodeArrayFromHeader f lines (i + 1) hi.1 hi.2 baseDepth opts with
          | .error e => .error e
          | .ok (vs, j) => .ok (.arr vs, j)
        | .ok none => decodeListItemRest f lines i baseDepth opts afterHyphen
      else decodeListItemRest f lines i baseDepth opts afterHyphen

/-- Fall-through of `decodeListItem` past the array-header check (the
object and primitive cases; source `decodeObjectFromListItem` inlined as
its first pair plus the continuation loop). -/
def decodeListItemRest (fuel : Nat) (lines : List ParsedLine) (i : Nat) (baseDepth : Nat)
    (opts : RDecOpts) (afterHyphen : List Char) : Except Err (HostValue × Nat) :=
  match fuel with
  | 0 => .error .fuelOut
  | f + 1 =>
    if isObjectFirstFieldAfterHyphen afterHyphen then
      match decodeKeyValue f lines (i + 1) afterHyphen baseDepth opts with
      | .error e => .error e
      | .ok (key, value, j, followDepth) =>
        match decodeObjFromListItemLoop f lines j followDepth opts [(key, value)] with
        | .error e => .error e
        | .ok (entries, j2) => .ok (.obj entries, j2)
    else
      match parsePrimitiveToken afterHyphen with
      | .error e => .error e
      | .ok v => .ok (v, i + 1)

/-- Continuation loop of source `decodeObjectFromListItem`: further keys
of the same object at the follow depth, not starting with `- `. -/
def decodeObjFromListItemLoop (fuel : Nat) (lines : List ParsedLine) (j : Nat)
    (followDepth : Nat) (opts : RDecOpts) (acc : List (List Char × HostValue)) :
    Except Err (List (List Char × HostValue) × Nat) :=
  match fuel with
  | 0 => .error .fuelOut
  | f + 1 =>
    match lines.get? j with
    | none => .ok (acc, j)
    | some line =>
      if line.depth < followDepth then .ok (acc, j)
      else if line.depth = followDepth ∧ ¬ startsWithStr line.content listItemLead then
        match decodeKeyValue f lines (j + 1) line.content followDepth opts with
        | .error e => .error e
        | .ok (k, v, j2, _) => decodeObjFromListItemLoop f lines j2 followDepth opts (jsAssocSet acc k v)
      else .ok (acc, j)

end

/-- Fuel covering the decoder's call depth on a line list. -/
def decFuel (lines : List ParsedLine) : Nat := 4 * lines.length + 16

/-- Source `deserialize`: resolve options, split into lines, reject empty
input, decode. -/
def deserialize (toonStr : List Char) (options : Option DecodeOptions) :
    Except Err HostValue :=
  let resolvedOptions : RDecOpts := ⟨2, (options.map (fun o => o.strict)).getD false⟩
  match toParsedLines toonStr resolvedOptions.indent resolvedOptions.strict with
  | .error e => .error e
  | .ok scan =>
    if scan.1.length = 0 then .error .emptyInput
    else decodeValueFromLines (decFuel scan.1) scan.1 resolvedOptions

/-! ## Spec-side comparison predicates -/

def exceptIsOk {ε α : Type} : Except ε α → Bool
  | .ok _ => true
  | .error _ => false

/-- The data-row criterion in claim C3's words: no `:` at all, or the
first *unquoted* occurrence of the active delimiter before the first `:`.
(The implementation `isDataRow` uses a quote-blind `indexOf` instead.) -/
def specUnquotedDataRow (content : List Char) (delimiter : Char) : Bool :=
  let colonPos := jsIndexOf content ':'
  let delimPos := findUnquotedChar content delimiter
  if colonPos = -1 then true
  else if delimPos ≠ -1 ∧ delimPos < colonPos then true
  else false

/-- Whether a string begins (after `parseInt`-style whitespace skipping)
with an optional sign followed by a decimal digit — the exact acceptance
condition of `Number.parseInt(·, 10)`. -/
def bracketIntStart (l : List Char) : Bool :=
  match l.dropWhile isJsWs with
  | [] => false
  | c :: r =>
    if c = '-' ∨ c = '+' then
      match r with
      | d :: _ => d.isDigit
      | [] => false
    else c.isDigit

/-- Acceptance condition of `parseBracketSegment` spelled out: strip the
optional `#`, strip one trailing tab/pipe hint, and require a leading
(possibly signed) decimal integer; trailing characters are irrelevant. -/
def bracketSegAccepts (seg : List Char) : Bool :=
  let content := if startsWithChar seg '#' then seg.drop 1 else seg
  let content2 :=
    if endsWithChar content '\t' then jsSlice content 0 (-1)
    else if endsWithChar content '|' then jsSlice content 0 (-1)
    else content
  bracketIntStart content2

/-- The errors the decoding functions can produce: syntax errors,
reference errors, fuel exhaustion of this embedding, and — only in strict
mode — the count-mismatch `RangeError`.  In particular the empty-input
error is never produced past the line scan, and no count error exists
outside strict mode. -/
def DecErrOk (opts : RDecOpts) (e : Err) : Prop :=
  e = .synErr ∨ e = .refErr ∨ e = .fuelOut ∨ (e = .countMismatch ∧ opts.strict = true)

/-! ## Reference-graph model for cycle detection (claim C4)

`hasCircularReference` inspects object *references*; to give cycles a
meaning the value graph is modelled as a heap of numbered nodes.  A node
is a primitive leaf or a container holding child node ids; dangling ids
behave like JS `undefined` (not an object, hence never circular). -/

inductive Prim where
  | pnull
  | pbool (b : Bool)
  | pnum (n : JsNum)
  | pstr (s : List Char)
deriving DecidableEq

inductive HNode where
  | leaf (p : Prim)
  | arrN (children : List Nat)
  | objN (entries : List (List Char × Nat))
deriving DecidableEq

abbrev Heap := List HNode

/-- Child ids of a node (array elements / own enumerable property
values). -/
def childIds : HNode → List Nat
  | .leaf _ => []
  | .arrN cs => cs
  | .objN es => es.map (fun e => e.2)

/-- The recursive `check` of source `hasCircularReference` over the heap:
non-objects are never circular, a node already on the stack is, otherwise
the children are checked with the node pushed (popped on return via the
scoped `seen`).  Fuel only bounds the stack depth; `hasCircularReference`
supplies enough for any heap. -/
def checkCirc (h : Heap) : Nat → List Nat → Nat → Bool
  | fuel, seen, id =>
    match h.get? id with
    | none => false
    | some (.leaf _) => false
    | some nd =>
      match fuel with
      | 0 => false
      | f + 1 =>
        if id ∈ seen then true
        else (childIds nd).any (fun c => checkCirc h f (id :: seen) c)

/-- Source `hasCircularReference` on the heap model. -/
def hasCircularReferenceHeap (h : Heap) (root : Nat) : Bool :=
  checkCirc h (h.length + 1) [] root

/-- Read the value tree out of the heap (meaningful on acyclic heaps; the
fuel covers any simple path). -/
def heapToHost (fuel : Nat) (h : Heap) (id : Nat) : HostValue :=
  match fuel with
  | 0 => .null
  | f + 1 =>
    match h.get? id with
    | none => .undef
    | some (.leaf .pnull) => .null
    | some (.leaf (.pbool b)) => .bool b
    | some (.leaf (.pnum n)) => .num n
    | some (.leaf (.pstr s)) => .str s
    | some (.arrN cs) => .arr (cs.map (fun c => heapToHost f h c))
    | some (.objN es) => .obj (es.map (fun e => (e.1, heapToHost f h e.2)))

/-- `serialize` on the heap model: the reference-level cycle guard, then
normalization and encoding of the value read from the heap. -/
def serializeHeap (h : Heap) (root : Nat) : Except Err (List Char) :=
  if hasCircularReferenceHeap h root then .error .cycleDetected
  else
    let v := heapToHost (h.length + 1) h root
    let normalized := normalizeValue v
    .ok (encodeValue (encFuel normalized) normalized (resolveOptions none))

/-- One reference step: `b` is a child of the container at `a`. -/
def HEdge (h : Heap) (a b : Nat) : Prop :=
  ∃ nd, h.get? a = some nd ∧ b ∈ childIds nd

/-- Reachability along references. -/
def HReach (h : Heap) : Nat → Nat → Prop := Relation.ReflTransGen (HEdge h)

/-- Some node reachable from `root` lies on a nonempty reference cycle:
a container that directly or transitively reaches itself. -/
def HasCycleFrom (h : Heap) (root : Nat) : Prop :=
  ∃ n c, HReach h root n ∧ HEdge h n c ∧ HReach h c n

/-! # Theorems -/

/-- The overflow numeral is the IEEE midpoint `2^1024 - 2^970`. -/
theorem dblOverflow_eq : dblOverflow = (2 : ℚ) ^ (1024 : ℕ) - (2 : ℚ) ^ (970 : ℕ) := by
  rw [dblOverflow]; norm_num

/-- Every entry of `jsAssocSet l k v` is an entry of `l` or the new pair. -/
theorem jsAssocSet_mem {α : Type} {l : List (List Char × α)} {k : List Char} {v : α}
    {e : List Char × α} (h : e ∈ jsAssocSet l k v) : e ∈ l ∨ e = (k, v) := by
  induction l with
  | nil => simpa [jsAssocSet] using h
  | cons e0 rest ih =>
    obtain ⟨k0, v0⟩ := e0
    by_cases hk : k0 = k
    · simp only [jsAssocSet, if_pos hk, List.mem_cons] at h
      rcases h with h | h
      · exact Or.inr h
      · exact Or.inl (List.mem_cons_of_mem _ h)
    · simp only [jsAssocSet, if_neg hk, List.mem_cons] at h
      rcases h with h | h
      · exact Or.inl (by simp [h])
      · rcases ih h with h2 | h2
        · exact Or.inl (List.mem_cons_of_mem _ h2)
        · exact Or.inr h2

/-- Folding `jsAssocSet` never invents entries. -/
theorem jsFromEntries_mem_aux {α : Type} {l : List (List Char × α)}
    {acc : List (List Char × α)} {e : List Char × α}
    (h : e ∈ l.foldl (fun a p => jsAssocSet a p.1 p.2) acc) : e ∈ acc ∨ e ∈ l := by
  induction l generalizing acc with
  | nil => exact Or.inl h
  | cons p rest ih =>
    rcases @ih (jsAssocSet acc p.1 p.2) h with h2 | h2
    · rcases jsAssocSet_mem h2 with h3 | h3
      · exact Or.inl h3
      · exact Or.inr (by simp [h3])
    · exact Or.inr (List.mem_cons_of_mem _ h2)

/-- Every entry of `jsFromEntries l` is an entry of `l`. -/
theorem jsFromEntries_mem {α : Type} {l : List (List Char × α)} {e : List Char × α}
    (h : e ∈ jsFromEntries l) : e ∈ l := by
  rcases @jsFromEntries_mem_aux _ _ [] _ h with h2 | h2
  · simp at h2
  · exact h2

/-- `normalizeEntries` fixes any entry list whose values are already
normalization fixed points. -/
theorem normalizeEntries_fix (l : List (List Char × HostValue))
    (h : ∀ e ∈ l, normalizeValue e.2 = e.2) : normalizeEntries l = l := by
  induction l with
  | nil => rfl
  | cons e rest ih =>
    obtain ⟨k, v⟩ := e
    simp only [normalizeEntries]
    rw [h (k, v) (by simp), ih (fun e he => h e (List.mem_cons_of_mem _ he))]

mutual

/-- Normalization is a projection: applying it twice equals applying it
once. -/
theorem normalizeValue_idem : (v : HostValue) →
    normalizeValue (normalizeValue v) = normalizeValue v
  | .null => rfl
  | .str _ => rfl
  | .bool _ => rfl
  | .num n => by cases n <;> rfl
  | .bigint n => by
    simp only [normalizeValue]
    split
    · rfl
    · rfl
  | .date _ => rfl
  | .arr items => by
    simp only [normalizeValue]
    exact congrArg HostValue.arr (normalizeList_idem items)
  | .set items => by
    simp only [normalizeValue]
    exact congrArg HostValue.arr (normalizeList_idem items)
  | .map entries => by
    simp only [normalizeValue]
    exact congrArg HostValue.obj
      (normalizeEntries_fix _
        (fun e he => normEntriesVals entries e (jsFromEntries_mem he)))
  | .obj entries => by
    simp only [normalizeValue]
    exact congrArg HostValue.obj (normalizeEntries_idem entries)
  | .undef => rfl
  | .other => rfl

theorem normalizeList_idem : (l : List HostValue) →
    normalizeList (normalizeList l) = normalizeList l
  | [] => rfl
  | v :: rest => by
    simp only [normalizeList]
    rw [normalizeValue_idem v, normalizeList_idem rest]

theorem normalizeEntries_idem : (es : List (List Char × HostValue)) →
    normalizeEntries (normalizeEntries es) = normalizeEntries es
  | [] => rfl
  | (k, v) :: rest => by
    simp only [normalizeEntries]
    rw [normalizeValue_idem v, normalizeEntries_idem rest]

/-- Every value stored by `normalizeEntries` is a normalization fixed
point. -/
theorem normEntriesVals : (es : List (List Char × HostValue)) →
    ∀ e ∈ normalizeEntries es, normalizeValue e.2 = e.2
  | [] => by intro e he; simp [normalizeEntries] at he
  | (k, v) :: rest => by
    intro e he
    simp only [normalizeEntries, List.mem_cons] at he
    rcases he with h | h
    · rw [h]; exact normalizeValue_idem v
    · exact normEntriesVals rest e h

end

/-- C8: normalization is idempotent:
`normalizeValue (normalizeValue v) = normalizeValue v` for every host
value `v`. -/
theorem c8_normalize_idempotent :
    ∀ v : HostValue, normalizeValue (normalizeValue v) = normalizeValue v :=
  normalizeValue_idem

/-! ## Cycle detection (claim C4) -/

/-- A nodup list of node indices cannot outnumber the heap. -/
theorem seen_length_le (h : Heap) (seen : List Nat) (hnd : seen.Nodup)
    (hb : ∀ n ∈ seen, n < h.length) : seen.length ≤ h.length := by
  have h1 : seen.toFinset.card = seen.length := List.toFinset_card_of_nodup hnd
  have h2 : seen.toFinset ⊆ Finset.range h.length := by
    intro x hx
    exact Finset.mem_range.mpr (hb x (List.mem_toFinset.mp hx))
  calc seen.length = seen.toFinset.card := h1.symm
    _ ≤ (Finset.range h.length).card := Finset.card_le_card h2
    _ = h.length := Finset.card_range _

/-- Soundness of the DFS: a `true` answer exhibits either a reachable
node already on the stack or a reachable node lying on a cycle. -/
theorem checkCirc_sound (h : Heap) :
    ∀ fuel seen nid, checkCirc h fuel seen nid = true →
      (∃ n ∈ seen, HReach h nid n) ∨
      (∃ n c, HReach h nid n ∧ HEdge h n c ∧ HReach h c n) := by
  intro fuel
  induction fuel with
  | zero =>
    intro seen nid hck
    rw [checkCirc] at hck
    rcases hget : h.get? nid with _ | nd
    · rw [hget] at hck; exact absurd hck (by simp)
    · rw [hget] at hck
      cases nd with
      | leaf p => exact absurd hck (by simp)
      | arrN cs => exact absurd hck (by simp)
      | objN es => exact absurd hck (by simp)
  | succ f ih =>
    intro seen nid hck
    rw [checkCirc] at hck
    rcases hget : h.get? nid with _ | nd
    · rw [hget] at hck; exact absurd hck (by simp)
    · rw [hget] at hck
      have hcont : ∀ nd2, h.get? nid = some nd2 →
          (if nid ∈ seen then true
            else (childIds nd2).any (fun c => checkCirc h f (nid :: seen) c)) = true →
          (∃ n ∈ seen, HReach h nid n) ∨
          (∃ n c, HReach h nid n ∧ HEdge h n c ∧ HReach h c n) := by
        intro nd2 hget2 hck2
        by_cases hmem : nid ∈ seen
        · exact Or.inl ⟨nid, hmem, Relation.ReflTransGen.refl⟩
        · rw [if_neg hmem] at hck2
          obtain ⟨c, hc, hcktrue⟩ := List.any_eq_true.mp hck2
          have hedge : HEdge h nid c := ⟨nd2, hget2, hc⟩
          rcases ih (nid :: seen) c hcktrue with ⟨n, hn, hr⟩ | ⟨n, c2, hr, he2, hcy⟩
          · rcases List.mem_cons.mp hn with hni | hns
            · exact Or.inr ⟨nid, c, Relation.ReflTransGen.refl, hedge, hni ▸ hr⟩
            · exact Or.inl ⟨n, hns, Relation.ReflTransGen.head hedge hr⟩
          · exact Or.inr ⟨n, c2, Relation.ReflTransGen.head hedge hr, he2, hcy⟩
      cases nd with
      | leaf p => exact absurd hck (by simp)
      | arrN cs => exact hcont (.arrN cs) hget hck
      | objN es => exact hcont (.objN es) hget hck

/-- Detection: with enough fuel the DFS reports every input from which a
cycle is reachable. -/
theorem checkCirc_detects (h : Heap) :
    ∀ fuel seen nid, h.length + 1 ≤ fuel + seen.length → seen.Nodup →
      (∀ n ∈ seen, n < h.length) → HasCycleFrom h nid →
      checkCirc h fuel seen nid = true := by
  intro fuel
  induction fuel with
  | zero =>
    intro seen nid harity hnd hb _
    have := seen_length_le h seen hnd hb
    omega
  | succ f ih =>
    intro seen nid harity hnd hb hcyc
    obtain ⟨n, c, hreach, hedge, hcy⟩ := hcyc
    -- the start of the witness path leaves `nid`, so `nid` is a container
    have hstart : ∃ b, HEdge h nid b :=
      match Relation.ReflTransGen.cases_head hreach with
      | Or.inl heq => ⟨c, heq ▸ hedge⟩
      | Or.inr ⟨b, hib, _⟩ => ⟨b, hib⟩
    obtain ⟨b0, nd0, hget0, hbmem0⟩ := hstart
    rw [checkCirc, hget0]
    have hbody :
        (if nid ∈ seen then true
          else (childIds nd0).any (fun c2 => checkCirc h f (nid :: seen) c2)) = true := by
      by_cases hmem : nid ∈ seen
      · rw [if_pos hmem]
      · rw [if_neg hmem]
        apply List.any_eq_true.mpr
        rcases Relation.ReflTransGen.cases_head hreach with heq | ⟨b, hib, hbn⟩
        · -- nid = n : the cycle starts here; recurse into the cycle child
          subst heq
          obtain ⟨nd1, hget1, hcmem⟩ := hedge
          have hnd1 : nd1 = nd0 := by
            rw [hget0] at hget1; exact (Option.some.inj hget1).symm
          refine ⟨c, hnd1 ▸ hcmem, ?_⟩
          apply ih (nid :: seen) c (by simp only [List.length_cons]; omega)
            (List.nodup_cons.mpr ⟨hmem, hnd⟩)
            (by intro m hm
                rcases List.mem_cons.mp hm with hm1 | hm2
                · subst hm1; exact (List.get?_eq_some.mp hget0).1
                · exact hb m hm2)
          exact ⟨nid, c, hcy, ⟨nd1, hget1, hcmem⟩, hcy⟩
        · -- follow the witness path one step
          obtain ⟨nd1, hget1, hbmem⟩ := hib
          have hnd1 : nd1 = nd0 := by
            rw [hget0] at hget1; exact (Option.some.inj hget1).symm
          refine ⟨b, hnd1 ▸ hbmem, ?_⟩
          apply ih (nid :: seen) b (by simp only [List.length_cons]; omega)
            (List.nodup_cons.mpr ⟨hmem, hnd⟩)
            (by intro m hm
                rcases List.mem_cons.mp hm with hm1 | hm2
                · subst hm1; exact (List.get?_eq_some.mp hget0).1
                · exact hb m hm2)
          exact ⟨n, c, hbn, hedge, hcy⟩
    cases nd0 with
    | leaf p => simp [childIds] at hbmem0
    | arrN cs => exact hbody
    | objN es => exact hbody

/-- The reference-level check answers `true` exactly on inputs from which
a container reaches itself. -/
theorem hasCircularReferenceHeap_iff (h : Heap) (root : Nat) :
    hasCircularReferenceHeap h root = true ↔ HasCycleFrom h root := by
  constructor
  · intro hck
    rcases checkCirc_sound h (h.length + 1) [] root hck with ⟨n, hn, _⟩ | hc
    · simp at hn
    · exact hc
  · intro hcyc
    exact checkCirc_detects h (h.length + 1) [] root (by simp) List.nodup_nil
      (by intro n hn; simp at hn) hcyc

/-- `jsParseInt` accepts exactly the strings that start (after whitespace)
with an optionally signed decimal digit. -/
theorem jsParseInt_isSome (x : List Char) : (jsParseInt x).isSome = bracketIntStart x := by
  simp only [jsParseInt, bracketIntStart]
  cases hd : x.dropWhile isJsWs with
  | nil => simp
  | cons c r =>
    by_cases h1 : c = '-'
    · subst h1
      cases r with
      | nil => simp [List.takeWhile]
      | cons d r2 =>
        by_cases h2 : d.isDigit <;> simp [List.takeWhile, h2]
    · by_cases h2 : c = '+'
      · subst h2
        cases r with
        | nil => simp [List.takeWhile]
        | cons d r2 =>
          by_cases h3 : d.isDigit <;> simp [List.takeWhile, h1, h3]
      · by_cases h3 : c.isDigit <;> simp [List.takeWhile, h1, h2, h3]

/-- C7 (amended): `parseBracketSegment` strips the optional `#` marker and
one trailing tab/pipe hint, then accepts iff the remainder begins — after
optional whitespace — with an optional sign followed by a decimal digit
(`Number.parseInt` semantics): the leading digits give the length, any
trailing characters are ignored, and negative lengths are accepted; only
a remainder with no leading integer at all (such as an empty one) is
rejected, making the line not an array header. -/
theorem c7_amended_bracket_acceptance (seg : List Char) (d : Char) :
    exceptIsOk (parseBracketSegment seg d) = bracketSegAccepts seg := by
  simp only [parseBracketSegment, bracketSegAccepts, List.drop_one]
  set t := if startsWithChar seg '#' = true then seg.tail else seg with ht
  by_cases h1 : endsWithChar t '\t'
  · simp only [h1, if_true]
    rw [← jsParseInt_isSome]
    rcases hj : jsParseInt (jsSlice t 0 (-1)) with _ | n <;> simp [exceptIsOk, hj]
  · by_cases h2 : endsWithChar t '|'
    · simp only [h1, h2, if_true, if_false]
      rw [← jsParseInt_isSome]
      rcases hj : jsParseInt (jsSlice t 0 (-1)) with _ | n <;> simp [exceptIsOk, hj]
    · simp only [h1, h2, if_false]
      rw [← jsParseInt_isSome]
      rcases hj : jsParseInt t with _ | n <;> simp [exceptIsOk, hj]

/-- The tabular row loop never rewinds the cursor. -/
theorem decodeTabularArrayLoop_mono :
    ∀ (fuel : Nat) (lines : List ParsedLine) (hd : ArrayHeader) (i rd : Nat)
      (opts : RDecOpts) (acc : List HostValue) (l : List HostValue) (j : Nat),
      decodeTabularArrayLoop fuel lines hd i rd opts acc = .ok (l, j) → i ≤ j := by
  intro fuel
  induction fuel with
  | zero =>
    intro lines hd i rd opts acc l j h
    rw [decodeTabularArrayLoop] at h
    exact absurd h (by simp)
  | succ f ih =>
    intro lines hd i rd opts acc l j h
    rw [decodeTabularArrayLoop] at h
    by_cases hcnt : Int.ofNat acc.length < hd.length
    · rw [if_pos hcnt] at h
      cases hline : lines.get? i with
      | none => simp only [hline] at h; simp at h; omega
      | some line =>
        simp only [hline] at h
        by_cases hlt : line.depth < rd
        · rw [if_pos hlt] at h; simp at h; omega
        · rw [if_neg hlt] at h
          by_cases heq : line.depth = rd
          · rw [if_pos heq] at h
            by_cases hrow :
                (!startsWithStr line.content listItemLead &&
                  isDataRow line.content hd.delimiter) = true
            · rw [if_pos hrow] at h
              cases hassert : assertExpectedCount
                  (parseDelimitedValues line.content hd.delimiter).length
                  (Int.ofNat (hd.fields.getD []).length) opts with
              | error e => rw [hassert] at h; exact absurd h (by simp)
              | ok u =>
                rw [hassert] at h
                cases hmap : mapRowValuesToPrimitives
                    (parseDelimitedValues line.content hd.delimiter) with
                | error e => rw [hmap] at h; exact absurd h (by simp)
                | ok prims =>
                  rw [hmap] at h
                  have := ih lines hd (i + 1) rd opts _ l j h
                  omega
            · rw [if_neg hrow] at h; simp at h; omega
          · rw [if_neg heq] at h; simp at h; omega
    · rw [if_neg hcnt] at h; simp at h; omega

/-- C3 (amended): `isDataRow` holds exactly when the content has no `:`
at all or the first occurrence of the active delimiter — counted even
inside quotes, unlike the claim's "unquoted" — comes before the first
`:`; and during tabular decoding a line at the row depth is consumed as a
data row exactly when, in addition, it does not start with `- ` and fewer
than `N` rows have been decoded (otherwise the loop stops there). -/
theorem c3_amended_data_row :
    (∀ (content : List Char) (delim : Char),
      isDataRow content delim = true ↔
        (jsIndexOf content ':' = -1 ∨
          (jsIndexOf content delim ≠ -1 ∧ jsIndexOf content delim < jsIndexOf content ':'))) ∧
    (∀ (fuel : Nat) (lines : List ParsedLine) (hd : ArrayHeader) (i rd : Nat)
        (opts : RDecOpts) (acc : List HostValue) (ln : ParsedLine),
      lines.get? i = some ln → ln.depth = rd →
      (decodeTabularArrayLoop (fuel + 1) lines hd i rd opts acc = .ok (acc, i) ↔
        ¬(Int.ofNat acc.length < hd.length ∧
          startsWithStr ln.content listItemLead = false ∧
          isDataRow ln.content hd.delimiter = true))) := by
  constructor
  · intro content delim
    simp only [isDataRow]
    by_cases h1 : jsIndexOf content ':' = -1
    · simp [h1]
    · by_cases h2 : jsIndexOf content delim ≠ -1 ∧ jsIndexOf content delim < jsIndexOf content ':'
      · simp [h1, h2]
      · simp [h1, h2]
  · intro fuel lines hd i rd opts acc ln hget hdepth
    subst hdepth
    constructor
    · intro hok hcond
      obtain ⟨hcnt, hstarts, hrow⟩ := hcond
      rw [decodeTabularArrayLoop] at hok
      rw [if_pos hcnt] at hok
      simp only [hget, lt_irrefl, if_false, if_true] at hok
      rw [show (!startsWithStr ln.content listItemLead &&
          isDataRow ln.content hd.delimiter) = true by rw [hstarts, hrow]; rfl] at hok
      rw [if_pos rfl] at hok
      cases hassert : assertExpectedCount
          (parseDelimitedValues ln.content hd.delimiter).length
          (Int.ofNat (hd.fields.getD []).length) opts with
      | error e => rw [hassert] at hok; exact absurd hok (by simp)
      | ok u =>
        rw [hassert] at hok
        cases hmap : mapRowValuesToPrimitives
            (parseDelimitedValues ln.content hd.delimiter) with
        | error e => rw [hmap] at hok; exact absurd hok (by simp)
        | ok prims =>
          rw [hmap] at hok
          have := decodeTabularArrayLoop_mono fuel lines hd (i + 1) ln.depth opts _ acc i hok
          omega
    · intro hncond
      rw [decodeTabularArrayLoop]
      by_cases hcnt : Int.ofNat acc.length < hd.length
      · rw [if_pos hcnt]
        simp only [hget, lt_irrefl, if_false, if_true]
        have hcondfalse : (!startsWithStr ln.content listItemLead &&
            isDataRow ln.content hd.delimiter) = false := by
          rcases Bool.eq_false_or_eq_true (startsWithStr ln.content listItemLead) with hs | hs
          · simp [hs]
          · have hnr : ¬ isDataRow ln.content hd.delimiter = true :=
              fun hr => hncond ⟨hcnt, hs, hr⟩
            simp only [hs, Bool.not_false, Bool.true_and]
            exact Bool.eq_false_iff.mpr hnr
        rw [hcondfalse]
        simp
      · rw [if_neg hcnt]

/-- C3 witness: a `- `-prefixed line at the row depth is not consumed as
a data row — the loop stops with the accumulator unchanged. -/
theorem c3_amended_witness :
    decodeTabularArrayLoop 4 [⟨"  - z".data, 2, "- z".data, 1, 1⟩]
      ⟨none, 5, ',', some ["k".data], false⟩ 0 1 ⟨2, false⟩ [] = .ok ([], 0) :=
  (c3_amended_data_row.2 3 [⟨"  - z".data, 2, "- z".data, 1, 1⟩]
    ⟨none, 5, ',', some ["k".data], false⟩ 0 1 ⟨2, false⟩ []
    ⟨"  - z".data, 2, "- z".data, 1, 1⟩ rfl rfl).mpr (by decide)

/-! ## Quote necessity (claim C5) -/

/-- A single global replace distributes over append. -/
theorem replaceChar_append (c : Char) (r : List Char) :
    ∀ a b, replaceChar c r (a ++ b) = replaceChar c r a ++ replaceChar c r b := by
  intro a b
  induction a with
  | nil => rfl
  | cons x rest ih => simp only [List.cons_append, replaceChar, List.append_eq, ih, List.append_assoc]

/-- The five sequential replaces of `escapeString` act characterwise. -/
theorem escapeString_cons (c : Char) (v : List Char) :
    escapeString (c :: v) = escUnit c ++ escapeString v := by
  have h1 : ∀ x r (l : List Char), replaceChar x r (l) = replaceChar x r l := fun _ _ _ => rfl
  show escapeString (c :: v) = escUnit c ++ escapeString v
  by_cases hb : c = '\\'
  · subst hb; simp [escapeString, replaceChar, replaceChar_append, escUnit]
  · by_cases hq : c = '"'
    · subst hq; simp [escapeString, replaceChar, replaceChar_append, escUnit]
    · by_cases hn : c = '\n'
      · subst hn; simp [escapeString, replaceChar, replaceChar_append, escUnit]
      · by_cases hr : c = '\r'
        · subst hr; simp [escapeString, replaceChar, replaceChar_append, escUnit]
        · by_cases ht : c = '\t'
          · subst ht; simp [escapeString, replaceChar, replaceChar_append, escUnit]
          · simp [escapeString, replaceChar, replaceChar_append, escUnit, hb, hq, hn, hr, ht]

/-- Unescaping inverts escaping. -/
theorem unescape_escape (v : List Char) :
    unescapeString (escapeString v) = .ok v := by
  induction v with
  | nil => rfl
  | cons c rest ih =>
    rw [escapeString_cons]
    by_cases hb : c = '\\'
    · subst hb; simp [escUnit, unescapeString, ih, Except.map]
    · by_cases hq : c = '"'
      · subst hq; simp [escUnit, unescapeString, ih, Except.map]
      · by_cases hn : c = '\n'
        · subst hn; simp [escUnit, unescapeString, ih, Except.map]
        · by_cases hr : c = '\r'
          · subst hr; simp [escUnit, unescapeString, ih, Except.map]
          · by_cases ht : c = '\t'
            · subst ht; simp [escUnit, unescapeString, ih, Except.map]
            · rw [show escUnit c = [c] from by simp [escUnit, hb, hq, hn, hr, ht]]
              try simp only [List.cons_append, List.singleton_append, List.nil_append]
              rw [unescapeString.eq_def]
              simp only [if_neg hb]
              rw [ih]
              simp [Except.map]

/-- Classification of `escUnit`: an escape pair, or the bare character
(which is then neither a backslash nor a quote). -/
theorem escUnit_cases (c : Char) :
    (∃ d, escUnit c = ['\\', d]) ∨ (escUnit c = [c] ∧ c ≠ '\\' ∧ c ≠ '"') := by
  by_cases hb : c = '\\'
  · exact Or.inl ⟨'\\', by rw [hb]; rfl⟩
  · by_cases hq : c = '"'
    · exact Or.inl ⟨'"', by rw [hq]; rfl⟩
    · by_cases hn : c = '\n'
      · exact Or.inl ⟨'n', by rw [hn]; rfl⟩
      · by_cases hr : c = '\r'
        · exact Or.inl ⟨'r', by rw [hr]; rfl⟩
        · by_cases ht : c = '\t'
          · exact Or.inl ⟨'t', by rw [ht]; rfl⟩
          · exact Or.inr ⟨by simp [escUnit, hb, hq, hn, hr, ht], hb, hq⟩

/-- Scanning escaped text for the closing quote skips every escape pair
and lands exactly on the final appended quote. -/
theorem fcqAux_escape (v : List Char) :
    ∀ pos, fcqAux (escapeString v ++ ['"']) pos =
      Int.ofNat (pos + (escapeString v).length) := by
  induction v with
  | nil => intro pos; simp [escapeString, replaceChar, fcqAux]
  | cons c rest ih =>
    intro pos
    rw [escapeString_cons, List.append_assoc]
    rcases escUnit_cases c with ⟨d, hd⟩ | ⟨hsingle, hnb, hnq⟩
    · rw [hd]
      simp only [List.cons_append, List.singleton_append, List.nil_append]
      rw [show fcqAux ('\\' :: d :: (escapeString rest ++ ['"'])) pos =
            fcqAux (escapeString rest ++ ['"']) (pos + 2) from rfl]
      rw [ih]
      simp only [List.length_append, List.length_cons, List.length_nil]
      exact congrArg Int.ofNat (by omega)
    · rw [hsingle]
      try simp only [List.cons_append, List.singleton_append, List.nil_append]
      rw [fcqAux.eq_def]
      simp only [if_neg hnb, if_neg hnq]
      rw [ih]
      simp only [List.length_append, List.length_cons, List.length_nil]
      exact congrArg Int.ofNat (by omega)

/-- Slicing between the outer quotes recovers the quoted body. -/
theorem jsSlice_quoted (mid : List Char) :
    jsSlice ('"' :: mid ++ ['"']) 1 (Int.ofNat mid.length + 1) = mid := by
  simp only [jsSlice]
  rw [show ('"' :: mid ++ ['"'] : List Char).length = mid.length + 2 from by simp]
  rw [if_neg (by omega : ¬ (1 : Int) < 0)]
  rw [if_neg (by simp only [Int.ofNat_eq_natCast]; omega : ¬ (Int.ofNat mid.length + 1) < 0)]
  rw [min_eq_left (by simp only [Int.ofNat_eq_natCast]; omega :
    (1 : Int) ≤ Int.ofNat (mid.length + 2))]
  rw [min_eq_left (by simp only [Int.ofNat_eq_natCast]; omega :
    Int.ofNat mid.length + 1 ≤ Int.ofNat (mid.length + 2))]
  rw [show (Int.ofNat mid.length + 1).toNat = mid.length + 1 from by
    simp only [Int.ofNat_eq_natCast]; omega]
  rw [show ((1 : Int)).toNat = 1 from rfl]
  rw [show ('"' :: mid ++ ['"'] : List Char).take (mid.length + 1) = '"' :: mid from ?_]
  · rfl
  · rw [List.cons_append, List.take_succ_cons]
    rw [show (mid ++ ['"']).take mid.length = mid from by
      rw [List.take_append_of_le_length (le_refl _), List.take_length]]

/-- Trimming a quoted token is the identity. -/
theorem jsTrim_quoted (mid : List Char) :
    jsTrim ('"' :: mid ++ ['"']) = '"' :: mid ++ ['"'] := by
  have h1 : jsTrimStart ('"' :: mid ++ ['"']) = '"' :: mid ++ ['"'] := rfl
  have h2 : jsTrimEnd ('"' :: mid ++ ['"']) = '"' :: mid ++ ['"'] := by
    rw [jsTrimEnd]
    rw [show ('"' :: mid ++ ['"'] : List Char).reverse = '"' :: ('"' :: mid).reverse from by
      simp]
    rw [show List.dropWhile isJsWs ('"' :: ('"' :: mid).reverse) =
      '"' :: ('"' :: mid).reverse from rfl]
    simp
  rw [jsTrim, h1, h2]

/-- A quoted-and-escaped token parses back to the escaped string. -/
theorem parseStringLiteral_quoted (v : List Char) :
    parseStringLiteral ('"' :: escapeString v ++ ['"']) = .ok v := by
  simp only [parseStringLiteral]
  rw [jsTrim_quoted (escapeString v)]
  rw [show startsWithChar ('"' :: escapeString v ++ ['"']) '"' = true from rfl]
  simp only [if_true]
  rw [show findClosingQuote ('"' :: escapeString v ++ ['"']) 0 =
        Int.ofNat (1 + (escapeString v).length) from ?_]
  · rw [if_neg (by simp only [Int.ofNat_eq_natCast]; omega :
      ¬ Int.ofNat (1 + (escapeString v).length) = -1)]
    rw [show ('"' :: escapeString v ++ ['"'] : List Char).length =
      (escapeString v).length + 2 from by simp]
    rw [if_neg (by simp only [Int.ofNat_eq_natCast]; omega :
      ¬ Int.ofNat (1 + (escapeString v).length) ≠ Int.ofNat ((escapeString v).length + 2) - 1)]
    rw [show Int.ofNat (1 + (escapeString v).length) =
      Int.ofNat (escapeString v).length + 1 from by
        simp only [Int.ofNat_eq_natCast]; omega]
    rw [jsSlice_quoted (escapeString v)]
    exact unescape_escape v
  · rw [findClosingQuote]
    rw [show ('"' :: escapeString v ++ ['"'] : List Char).drop (0 + 1) =
      escapeString v ++ ['"'] from rfl]
    exact fcqAux_escape v 1

/-- A quoted-and-escaped token decodes, as a primitive, to the string. -/
theorem parsePrimitiveToken_quoted (v : List Char) :
    parsePrimitiveToken ('"' :: escapeString v ++ ['"']) = .ok (.str v) := by
  simp only [parsePrimitiveToken]
  rw [jsTrim_quoted (escapeString v)]
  rw [if_neg (by simp : ¬ ('"' :: escapeString v ++ ['"'] : List Char) = [])]
  rw [show startsWithChar ('"' :: escapeString v ++ ['"']) '"' = true from rfl]
  simp only [if_true]
  rw [parseStringLiteral_quoted v]
  rfl

/-- Components guaranteed by a positive `isSafeUnquoted` verdict. -/
theorem isSafeUnquoted_parts {s : List Char} {delim : Char}
    (h : isSafeUnquoted s delim = true) :
    s ≠ [] ∧ jsTrim s = s ∧ isBooleanOrNullLiteral s = false ∧
      s.contains '"' = false := by
  rw [isSafeUnquoted] at h
  split at h
  · exact (Bool.false_ne_true h).elim
  rename_i h1
  split at h
  · exact (Bool.false_ne_true h).elim
  rename_i h2
  split at h
  · exact (Bool.false_ne_true h).elim
  rename_i h3
  split at h
  · exact (Bool.false_ne_true h).elim
  rename_i h4
  split at h
  · exact (Bool.false_ne_true h).elim
  rename_i h5
  split at h
  · exact (Bool.false_ne_true h).elim
  split at h
  · exact (Bool.false_ne_true h).elim
  split at h
  · exact (Bool.false_ne_true h).elim
  split at h
  · exact (Bool.false_ne_true h).elim
  refine ⟨h1, (not_not.mp h2).symm, ?_, ?_⟩
  · have h3f : (isBooleanOrNullLiteral s || isNumericLike s) = false :=
      Bool.eq_false_iff.mpr h3
    exact (Bool.or_eq_false_iff.mp h3f).1
  · have h5f : (s.contains '"' || s.contains '\\') = false :=
      Bool.eq_false_iff.mpr h5
    exact (Bool.or_eq_false_iff.mp h5f).1

/-- C5 (amended): a string is emitted bare iff `isSafeUnquoted` holds and
quoted-and-escaped otherwise; a quoted emission always parses back to the
same string; a bare emission parses back to the same string provided the
parser-side numeric rule (`isNumericLiteral`) also rejects it — the
emitter's `isNumericLike` regex accepts strictly fewer shapes, so tokens
such as `.5` are emitted bare yet decode as numbers. -/
theorem c5_amended_quote_necessity (s : List Char) (delim : Char) :
    (isSafeUnquoted s delim = true → encodeStringLiteral s delim = s) ∧
    (isSafeUnquoted s delim = false →
      encodeStringLiteral s delim = '"' :: escapeString s ++ ['"'] ∧
      parsePrimitiveToken (encodeStringLiteral s delim) = .ok (.str s)) ∧
    (isSafeUnquoted s delim = true → isNumericLiteral s = false →
      parsePrimitiveToken (encodeStringLiteral s delim) = .ok (.str s)) := by
  refine ⟨?_, ?_, ?_⟩
  · intro hs
    rw [encodeStringLiteral, if_pos hs]
  · intro hs
    have he : encodeStringLiteral s delim = '"' :: escapeString s ++ ['"'] := by
      rw [encodeStringLiteral, if_neg (by simp [hs])]
    exact ⟨he, by rw [he]; exact parsePrimitiveToken_quoted s⟩
  · intro hs hnum
    rw [encodeStringLiteral, if_pos hs]
    obtain ⟨hne, htrim, hbool, hq⟩ := isSafeUnquoted_parts hs
    have hsw : startsWithChar s '"' = false := by
      cases s with
      | nil => rfl
      | cons c r =>
        simp only [List.contains_cons, Bool.or_eq_false_iff] at hq
        simp only [startsWithChar]
        exact decide_eq_false (fun hce => (by simpa using hq.1 : ¬ '"' = c) hce.symm)
    simp only [parsePrimitiveToken]
    rw [htrim]
    rw [if_neg hne, hsw]
    simp only [Bool.false_eq_true, if_false]
    rw [hbool]
    simp only [Bool.false_eq_true, if_false]
    rw [hnum]
    simp only [Bool.false_eq_true, if_false]

/-- C5 witness: `hello` is safe-unquoted and not numeric, so it is
emitted bare and parses back to itself. -/
theorem c5_amended_witness :
    encodeStringLiteral "hello".data ',' = "hello".data ∧
    parsePrimitiveToken (encodeStringLiteral "hello".data ',') =
      .ok (.str "hello".data) :=
  ⟨(c5_amended_quote_necessity "hello".data ',').1 (by with_unfolding_all rfl),
   (c5_amended_quote_necessity "hello".data ',').2.2 (by with_unfolding_all rfl)
     (by with_unfolding_all rfl)⟩

/-- C4: `serialize` on the reference graph raises the cycle error, before
any output, exactly when the input contains a container that directly or
transitively reaches itself; every acyclic input — including one whose
sibling subtrees share substructure — serializes without this error. -/
theorem c4_cycle_detection_iff (h : Heap) (root : Nat) :
    serializeHeap h root = .error .cycleDetected ↔ HasCycleFrom h root := by
  rw [serializeHeap]
  by_cases hc : hasCircularReferenceHeap h root = true
  · rw [if_pos hc]
    exact ⟨fun _ => (hasCircularReferenceHeap_iff h root).mp hc, fun _ => rfl⟩
  · rw [if_neg hc]
    constructor
    · intro heq; exact absurd heq (by simp)
    · intro hcyc; exact absurd ((hasCircularReferenceHeap_iff h root).mpr hcyc) hc

/-- C6: `normalizeValue` maps negative zero to `0`, every non-finite
number (`NaN`, `±∞`) to `null`, and leaves every finite number
unchanged. -/
theorem c6_normalize_numbers :
    normalizeValue (.num .negZero) = .num (.finite 0) ∧
    normalizeValue (.num .nan) = .null ∧
    normalizeValue (.num .inf) = .null ∧
    normalizeValue (.num .negInf) = .null ∧
    ∀ q : ℚ, normalizeValue (.num (.finite q)) = .num (.finite q) :=
  ⟨rfl, rfl, rfl, rfl, fun _ => rfl⟩

/-- Assignment `obj[k] = v` makes a later binding win: looking the key up
afterwards yields exactly the newly assigned value. -/
theorem assocGet_jsAssocSet (es : List (List Char × HostValue)) (k : List Char)
    (v : HostValue) : assocGet (jsAssocSet es k v) k = v := by
  induction es with
  | nil => simp [jsAssocSet, assocGet]
  | cons e rest ih =>
    obtain ⟨k0, v0⟩ := e
    by_cases hk : k0 = k
    · simp [jsAssocSet, hk, assocGet]
    · simp [jsAssocSet, hk, assocGet, ih]

/-- C10: two key-value lines with the same key at the same depth raise no
error in either mode and the last occurrence wins (`obj[key] = value`
overwrites). -/
theorem c10_duplicate_keys_last_wins :
    (∀ (es : List (List Char × HostValue)) (k : List Char) (v : HostValue),
      assocGet (jsAssocSet es k v) k = v) ∧
    deserialize "a: 1\na: 2".data (some ⟨false⟩) =
      .ok (.obj [("a".data, .num (.finite 2))]) ∧
    deserialize "a: 1\na: 2".data (some ⟨true⟩) =
      .ok (.obj [("a".data, .num (.finite 2))]) :=
  ⟨assocGet_jsAssocSet, by with_unfolding_all rfl, by with_unfolding_all rfl⟩

/-- C1 (code bug): the round-trip law fails on the plain empty object,
which the claim explicitly covers: `serialize({})` emits the empty string
while `normalizeValue({})` is `{}`, and `deserialize("")` raises the
empty-input error instead of returning `{}`. -/
theorem c1_roundtrip_empty_object_bug :
    serialize (.obj []) none = .ok [] ∧
    normalizeValue (.obj []) = .obj [] ∧
    deserialize [] none = .error .emptyInput :=
  ⟨by with_unfolding_all rfl, rfl, rfl⟩

/-- C2 counterexample: with `strict = true` a header declaring 1 item
followed by 2 list items does not raise a count-mismatch — the loop stops
after consuming 1 item and the assertion compares 1 against 1. -/
theorem c2_counterexample :
    deserialize "[1]:\n  - a\n  - b".data (some ⟨true⟩) =
      .ok (.arr [.str "a".data]) := by
  with_unfolding_all rfl

/-- C7 counterexample: `Number.parseInt` ignores trailing garbage and
accepts signs, so `[-3]: x` and `[2x]: p,q` are both recognized as array
headers (with lengths `-3` and `2`), contradicting the claimed rejection
of negative numbers and trailing garbage. -/
theorem c7_counterexample :
    parseBracketSegment "-3]".data ',' = .ok (-3, ',', false) ∧
    parseArrayHeaderLine "[-3]: x".data ',' =
      .ok (some (⟨none, -3, ',', none, false⟩, some "x".data)) ∧
    parseArrayHeaderLine "[2x]: p,q".data ',' =
      .ok (some (⟨none, 2, ',', none, false⟩, some "p,q".data)) :=
  ⟨rfl, rfl, rfl⟩

/-- C5 counterexample: the string `".5"` is classified safe-unquoted (the
emitter regex requires a digit before the dot) and emitted bare, but the
parser-side numeric rule accepts `.5`, so the token decodes to the number
`1/2`, not back to the string. -/
theorem c5_counterexample :
    isSafeUnquoted ".5".data ',' = true ∧
    encodeStringLiteral ".5".data ',' = ".5".data ∧
    parsePrimitiveToken ".5".data = .ok (.num (.finite (1 / 2 : ℚ))) ∧
    parsePrimitiveToken ".5".data ≠ .ok (.str ".5".data) := by
  refine ⟨rfl, rfl, by with_unfolding_all rfl, fun h => ?_⟩
  have h3 : Except.ok (ε := Err) (HostValue.num (JsNum.finite (1 / 2 : ℚ))) =
      Except.ok (HostValue.str ".5".data) := by
    rw [← h]; with_unfolding_all rfl
  exact HostValue.noConfusion (Except.ok.inj h3)

/-- C3 counterexample: the row line `"x,y": 1` (a quoted key containing
the delimiter) has no unquoted comma before its colon, so by the claim it
should end the tabular body; `isDataRow`'s quote-blind `indexOf` instead
classifies it as a data row, the loop consumes it, and decoding fails on
the leftover text after the closing quote. -/
theorem c3_counterexample :
    isDataRow "\"x,y\": 1".data ',' = true ∧
    specUnquotedDataRow "\"x,y\": 1".data ',' = false ∧
    decodeTabularArrayLoop 8
      [⟨"  \"x,y\": 1".data, 2, "\"x,y\": 1".data, 1, 2⟩]
      ⟨none, 1, ',', some ["k".data], false⟩ 0 1 ⟨2, false⟩ [] = .error .synErr ∧
    deserialize "[1]\x7bk\x7d:\n  \"x,y\": 1".data none = .error .synErr :=
  ⟨rfl, rfl, by with_unfolding_all rfl, by with_unfolding_all rfl⟩

/-! ## Error taxonomy of the decoder (claims C2 and C9) -/

/-- `Except.map` only fails when its argument fails, with the same error. -/
theorem except_map_error {ε α β : Type} {f : α → β} {x : Except ε α} {e : ε}
    (h : Except.map f x = .error e) : x = .error e := by
  cases x with
  | ok a => simp [Except.map] at h
  | error er => simpa [Except.map] using h

/-- Error analysis of `Except` bind. -/
theorem except_bind_err {ε α β : Type} {x : Except ε α} {f : α → Except ε β} {e : ε}
    (h : x >>= f = .error e) : x = .error e ∨ ∃ a, x = .ok a ∧ f a = .error e := by
  cases x with
  | error er =>
    have h' : (Except.error er : Except ε β) = Except.error e := h
    exact Or.inl (congrArg Except.error (Except.error.inj h'))
  | ok a => exact Or.inr ⟨a, rfl, h⟩

/-- Bind on a success is application. -/
theorem except_ok_bind {ε α β : Type} (a : α) (f : α → Except ε β) :
    ((Except.ok a : Except ε α) >>= f) = f a := rfl

/-- `unescapeString` fails only with a syntax error. -/
theorem unescapeString_err : ∀ (l : List Char) (e : Err),
    unescapeString l = .error e → e = .synErr
  | [], _, h => by simp [unescapeString] at h
  | [c], e, h => by
    rw [unescapeString.eq_def] at h
    by_cases hb : c = '\\'
    · subst hb
      simp only [if_pos rfl] at h
      exact (Except.error.inj h).symm
    · simp only [if_neg hb] at h
      simp [unescapeString, Except.map] at h
  | c :: d :: rest, e, h => by
    rw [unescapeString.eq_def] at h
    by_cases hb : c = '\\'
    · subst hb
      simp only [if_pos rfl] at h
      by_cases h1 : d = 'n'
      · simp only [if_pos h1] at h
        exact unescapeString_err rest e (except_map_error h)
      · simp only [if_neg h1] at h
        by_cases h2 : d = 't'
        · simp only [if_pos h2] at h
          exact unescapeString_err rest e (except_map_error h)
        · simp only [if_neg h2] at h
          by_cases h3 : d = 'r'
          · simp only [if_pos h3] at h
            exact unescapeString_err rest e (except_map_error h)
          · simp only [if_neg h3] at h
            by_cases h4 : d = '\\'
            · simp only [if_pos h4] at h
              exact unescapeString_err rest e (except_map_error h)
            · simp only [if_neg h4] at h
              by_cases h5 : d = '"'
              · simp only [if_pos h5] at h
                exact unescapeString_err rest e (except_map_error h)
              · simp only [if_neg h5] at h
                exact (Except.error.inj h).symm
    · simp only [if_neg hb] at h
      exact unescapeString_err (d :: rest) e (except_map_error h)

/-- `parseStringLiteral` fails only with a syntax error. -/
theorem parseStringLiteral_err {t : List Char} {e : Err}
    (h : parseStringLiteral t = .error e) : e = .synErr := by
  simp only [parseStringLiteral] at h
  split at h
  · split at h
    · exact (Except.error.inj h).symm
    · split at h
      · exact (Except.error.inj h).symm
      · exact unescapeString_err _ e h
  · simp at h

/-- `parsePrimitiveToken` fails only with a syntax error. -/
theorem parsePrimitiveToken_err {t : List Char} {e : Err}
    (h : parsePrimitiveToken t = .error e) : e = .synErr := by
  simp only [parsePrimitiveToken] at h
  split at h
  · simp at h
  · split at h
    · exact parseStringLiteral_err (except_map_error h)
    · split at h
      · split at h
        · simp at h
        · split at h
          · simp at h
          · simp at h
      · split at h
        · simp at h
        · simp at h

/-- `mapRowValuesToPrimitives` fails only with a syntax error. -/
theorem mapRowValuesToPrimitives_err : ∀ (vs : List (List Char)) (e : Err),
    mapRowValuesToPrimitives vs = .error e → e = .synErr
  | [], _, h => by simp [mapRowValuesToPrimitives] at h
  | v :: rest, e, h => by
    simp only [mapRowValuesToPrimitives] at h
    rcases except_bind_err h with h1 | ⟨p, _, h2⟩
    · exact parsePrimitiveToken_err h1
    · rcases except_bind_err h2 with h3 | ⟨ps, _, h4⟩
      · exact mapRowValuesToPrimitives_err rest e h3
      · simp at h4

/-- `parseUnquotedKey` fails only with a syntax error. -/
theorem parseUnquotedKey_err {c : List Char} {s : Nat} {e : Err}
    (h : parseUnquotedKey c s = .error e) : e = .synErr := by
  simp only [parseUnquotedKey] at h
  split at h
  · exact (Except.error.inj h).symm
  · simp at h

/-- `parseQuotedKey` fails only with a syntax error. -/
theorem parseQuotedKey_err {c : List Char} {s : Nat} {e : Err}
    (h : parseQuotedKey c s = .error e) : e = .synErr := by
  simp only [parseQuotedKey] at h
  split at h
  · exact (Except.error.inj h).symm
  · split at h
    · rename_i e0 heq
      exact (Except.error.inj h).symm.trans (unescapeString_err _ _ heq)
    · split at h
      · split at h
        · simp at h
        · exact (Except.error.inj h).symm
      · exact (Except.error.inj h).symm

/-- `parseKeyToken` fails only with a syntax error. -/
theorem parseKeyToken_err {c : List Char} {s : Nat} {e : Err}
    (h : parseKeyToken c s = .error e) : e = .synErr := by
  simp only [parseKeyToken] at h
  split at h
  · exact parseQuotedKey_err h
  · exact parseUnquotedKey_err h

/-- The field-name mapping step fails only with a syntax error. -/
theorem mapParseStringLits_err : ∀ (fs : List (List Char)) (e : Err),
    mapParseStringLits fs = .error e → e = .synErr
  | [], _, h => by simp [mapParseStringLits] at h
  | f :: rest, e, h => by
    simp only [mapParseStringLits] at h
    rcases except_bind_err h with h1 | ⟨s, _, h2⟩
    · exact parseStringLiteral_err h1
    · rcases except_bind_err h2 with h3 | ⟨ss, _, h4⟩
      · exact mapParseStringLits_err rest e h3
      · simp at h4

/-- `parseArrayHeaderLine` fails only with a syntax error (the bracket
segment's `TypeError` is caught and turned into "not a header"). -/
theorem parseArrayHeaderLine_err {c : List Char} {d : Char} {e : Err}
    (h : parseArrayHeaderLine c d = .error e) : e = .synErr := by
  simp only [parseArrayHeaderLine] at h
  repeat' split at h
  all_goals first
    | exact absurd h (fun hh => Except.noConfusion hh)
    | (rename_i e0 heq
       refine (Except.error.inj h).symm.trans ?_
       split at heq
       · split at heq
         · exact mapParseStringLits_err _ _ (except_map_error heq)
         · simp at heq
       · simp at heq)

/-- The strict count assertion is the only source of `countMismatch`, and
only fires in strict mode. -/
theorem assertExpectedCount_err {a : Nat} {x : Int} {opts : RDecOpts} {e : Err}
    (h : assertExpectedCount a x opts = .error e) :
    e = .countMismatch ∧ opts.strict = true := by
  rw [assertExpectedCount] at h
  split at h
  · rename_i hc
    exact ⟨(Except.error.inj h).symm, hc.1⟩
  · simp at h

theorem decErrOk_syn {opts : RDecOpts} {e : Err} (h : e = .synErr) : DecErrOk opts e :=
  Or.inl h

theorem decErrOk_ref {opts : RDecOpts} {e : Err} (h : e = .refErr) : DecErrOk opts e :=
  Or.inr (Or.inl h)

theorem decErrOk_fuel {opts : RDecOpts} {e : Err} (h : e = .fuelOut) : DecErrOk opts e :=
  Or.inr (Or.inr (Or.inl h))

theorem decErrOk_count {opts : RDecOpts} {e : Err} (h1 : e = .countMismatch)
    (h2 : opts.strict = true) : DecErrOk opts e :=
  Or.inr (Or.inr (Or.inr ⟨h1, h2⟩))

theorem decErrOk_trans {opts : RDecOpts} {e0 e : Err} (h : e0 = e)
    (hd : DecErrOk opts e0) : DecErrOk opts e := h ▸ hd

/-- `decodeInlinePrimitiveArray` only raises syntax errors or (in strict
mode) the count mismatch. -/
theorem decodeInlinePrimitiveArray_err {hd : ArrayHeader} {s : List Char}
    {opts : RDecOpts} {e : Err} (h : decodeInlinePrimitiveArray hd s opts = .error e) :
    DecErrOk opts e := by
  rw [decodeInlinePrimitiveArray] at h
  split at h
  · obtain ⟨he, hs⟩ := assertExpectedCount_err (except_map_error h)
    exact decErrOk_count he hs
  · rcases except_bind_err h with h1 | ⟨ps, _, h2⟩
    · exact decErrOk_syn (mapRowValuesToPrimitives_err _ _ h1)
    · rcases except_bind_err h2 with h3 | ⟨u, _, h4⟩
      · obtain ⟨he, hs⟩ := assertExpectedCount_err h3
        exact decErrOk_count he hs
      · simp at h4

/-- The tabular row loop only raises decodable errors. -/
theorem decodeTabularArrayLoop_errs : ∀ (fuel : Nat) (lines : List ParsedLine)
    (hd : ArrayHeader) (i rowDepth : Nat) (opts : RDecOpts) (acc : List HostValue)
    (e : Err), decodeTabularArrayLoop fuel lines hd i rowDepth opts acc = .error e →
    DecErrOk opts e := by
  intro fuel
  induction fuel with
  | zero =>
    intro lines hd i rd opts acc e h
    rw [decodeTabularArrayLoop] at h
    exact decErrOk_fuel (Except.error.inj h).symm
  | succ f ih =>
    intro lines hd i rd opts acc e h
    rw [decodeTabularArrayLoop] at h
    simp only [] at h
    repeat' split at h
    all_goals first
      | exact absurd h (fun hh => Except.noConfusion hh)
      | exact ih _ _ _ _ _ _ _ h
      | (rename_i e0 heq
         refine decErrOk_trans (Except.error.inj h) ?_
         first
           | exact decErrOk_count (assertExpectedCount_err heq).1
               (assertExpectedCount_err heq).2
           | exact decErrOk_syn (mapRowValuesToPrimitives_err _ _ heq))

/-- `decodeTabularArray` only raises decodable errors. -/
theorem decodeTabularArray_errs {fuel : Nat} {lines : List ParsedLine}
    {hd : ArrayHeader} {i bd : Nat} {opts : RDecOpts} {e : Err}
    (h : decodeTabularArray fuel lines hd i bd opts = .error e) : DecErrOk opts e := by
  rw [decodeTabularArray] at h
  split at h
  · rename_i e0 heq
    exact decErrOk_trans (Except.error.inj h)
      (decodeTabularArrayLoop_errs _ _ _ _ _ _ _ _ heq)
  · rename_i p heq
    obtain ⟨he, hs⟩ := assertExpectedCount_err (except_map_error h)
    exact decErrOk_count he hs

attribute [irreducible] decodeValueFromLines
  decodeTabularArrayLoop decodeTabularArray decodeInlinePrimitiveArray
  parseArrayHeaderLine parseKeyToken parsePrimitiveToken parseStringLiteral
  mapRowValuesToPrimitives assertExpectedCount

set_option maxHeartbeats 1600000 in
/-- Error taxonomy of the whole mutual decoder block: no decoding function
ever raises the empty-input error, and outside strict mode none raises the
count mismatch (one simultaneous induction on fuel). -/
theorem decode_errs : ∀ fuel : Nat,
    (∀ lines opts e, decodeValueFromLines fuel lines opts = .error e → DecErrOk opts e) ∧
    (∀ lines opts first e, decodeValueRest fuel lines opts first = .error e → DecErrOk opts e) ∧
    (∀ lines i bd opts acc e, decodeObjectLoop fuel lines i bd opts acc = .error e → DecErrOk opts e) ∧
    (∀ lines i c bd opts e, decodeKeyValue fuel lines i c bd opts = .error e → DecErrOk opts e) ∧
    (∀ lines i c bd opts e, decodeKeyValueNoHdr fuel lines i c bd opts = .error e → DecErrOk opts e) ∧
    (∀ lines i hd inl bd opts e, decodeArrayFromHeader fuel lines i hd inl bd opts = .error e → DecErrOk opts e) ∧
    (∀ lines hd i bd opts e, decodeListArray fuel lines hd i bd opts = .error e → DecErrOk opts e) ∧
    (∀ lines hd i d opts acc e, decodeListArrayLoop fuel lines hd i d opts acc = .error e → DecErrOk opts e) ∧
    (∀ lines i bd opts e, decodeListItem fuel lines i bd opts = .error e → DecErrOk opts e) ∧
    (∀ lines i bd opts ah e, decodeListItemRest fuel lines i bd opts ah = .error e → DecErrOk opts e) ∧
    (∀ lines j fd opts acc e, decodeObjFromListItemLoop fuel lines j fd opts acc = .error e → DecErrOk opts e) := by
  intro fuel
  induction fuel with
  | zero =>
    refine ⟨?_, ?_, ?_, ?_, ?_, ?_, ?_, ?_, ?_, ?_, ?_⟩
    · intro lines opts e h
      rw [decodeValueFromLines.eq_def] at h
      exact decErrOk_fuel (Except.error.inj h).symm
    · intro lines opts first e h
      rw [decodeValueRest.eq_def] at h
      exact decErrOk_fuel (Except.error.inj h).symm
    · intro lines i bd opts acc e h
      rw [decodeObjectLoop.eq_def] at h
      exact decErrOk_fuel (Except.error.inj h).symm
    · intro lines i c bd opts e h
      rw [decodeKeyValue.eq_def] at h
      exact decErrOk_fuel (Except.error.inj h).symm
    · intro lines i c bd opts e h
      rw [decodeKeyValueNoHdr.eq_def] at h
      exact decErrOk_fuel (Except.error.inj h).symm
    · intro lines i hd inl bd opts e h
      rw [decodeArrayFromHeader.eq_def] at h
      exact decErrOk_fuel (Except.error.inj h).symm
    · intro lines hd i bd opts e h
      rw [decodeListArray.eq_def] at h
      exact decErrOk_fuel (Except.error.inj h).symm
    · intro lines hd i d opts acc e h
      rw [decodeListArrayLoop.eq_def] at h
      exact decErrOk_fuel (Except.error.inj h).symm
    · intro lines i bd opts e h
      rw [decodeListItem.eq_def] at h
      exact decErrOk_fuel (Except.error.inj h).symm
    · intro lines i bd opts ah e h
      rw [decodeListItemRest.eq_def] at h
      exact decErrOk_fuel (Except.error.inj h).symm
    · intro lines j fd opts acc e h
      rw [decodeObjFromListItemLoop.eq_def] at h
      exact decErrOk_fuel (Except.error.inj h).symm
  | succ f ih =>
    obtain ⟨ihV, ihR, ihOL, ihKV, ihKN, ihAH, ihLA, ihLL, ihLI, ihLR, ihOFL⟩ := ih
    refine ⟨?_, ?_, ?_, ?_, ?_, ?_, ?_, ?_, ?_, ?_, ?_⟩
    · intro lines opts e h
      rw [decodeValueFromLines.eq_def] at h
      try simp only [] at h
      repeat' split at h
      all_goals first
        | exact absurd h (fun hh => Except.noConfusion hh)
        | exact decErrOk_ref (Except.error.inj h).symm
        | exact ihR _ _ _ _ h
        | (rename_i e0 heq
           exact decErrOk_trans (Except.error.inj h)
             (decErrOk_syn (parseArrayHeaderLine_err heq)))
        | (rename_i e0 heq
           exact decErrOk_trans (Except.error.inj h) (ihAH _ _ _ _ _ _ _ heq))
    · intro lines opts first e h
      rw [decodeValueRest.eq_def] at h
      try simp only [] at h
      repeat' split at h
      all_goals first
        | exact absurd h (fun hh => Except.noConfusion hh)
        | exact decErrOk_syn (parsePrimitiveToken_err h)
        | (rename_i e0 heq
           exact decErrOk_trans (Except.error.inj h) (ihOL _ _ _ _ _ _ heq))
    · intro lines i bd opts acc e h
      rw [decodeObjectLoop.eq_def] at h
      try simp only [] at h
      repeat' split at h
      all_goals first
        | exact absurd h (fun hh => Except.noConfusion hh)
        | exact ihOL _ _ _ _ _ _ h
        | (rename_i e0 heq
           exact decErrOk_trans (Except.error.inj h) (ihKV _ _ _ _ _ _ heq))
    · intro lines i c bd opts e h
      rw [decodeKeyValue.eq_def] at h
      try simp only [] at h
      repeat' split at h
      all_goals first
        | exact absurd h (fun hh => Except.noConfusion hh)
        | exact ihKN _ _ _ _ _ _ h
        | (rename_i e0 heq
           exact decErrOk_trans (Except.error.inj h)
             (decErrOk_syn (parseArrayHeaderLine_err heq)))
        | (rename_i e0 heq
           exact decErrOk_trans (Except.error.inj h) (ihAH _ _ _ _ _ _ _ heq))
    · intro lines i c bd opts e h
      rw [decodeKeyValueNoHdr.eq_def] at h
      try simp only [] at h
      repeat' split at h
      all_goals first
        | exact absurd h (fun hh => Except.noConfusion hh)
        | (rename_i e0 heq
           exact decErrOk_trans (Except.error.inj h)
             (decErrOk_syn (parseKeyToken_err heq)))
        | (rename_i e0 heq
           exact decErrOk_trans (Except.error.inj h) (ihOL _ _ _ _ _ _ heq))
        | (rename_i e0 heq
           exact decErrOk_trans (Except.error.inj h)
             (decErrOk_syn (parsePrimitiveToken_err heq)))
    · intro lines i hd inl bd opts e h
      rw [decodeArrayFromHeader.eq_def] at h
      try simp only [] at h
      repeat' split at h
      all_goals first
        | exact absurd h (fun hh => Except.noConfusion hh)
        | exact decodeInlinePrimitiveArray_err (except_map_error h)
        | exact decodeTabularArray_errs h
        | exact ihLA _ _ _ _ _ _ h
    · intro lines hd i bd opts e h
      rw [decodeListArray.eq_def] at h
      try simp only [] at h
      repeat' split at h
      all_goals first
        | exact absurd h (fun hh => Except.noConfusion hh)
        | (rename_i e0 heq
           exact decErrOk_trans (Except.error.inj h) (ihLL _ _ _ _ _ _ _ heq))
        | (rename_i e0 heq
           exact decErrOk_trans (Except.error.inj h)
             (decErrOk_count (assertExpectedCount_err heq).1
               (assertExpectedCount_err heq).2))
    · intro lines hd i d opts acc e h
      rw [decodeListArrayLoop.eq_def] at h
      try simp only [] at h
      repeat' split at h
      all_goals first
        | exact absurd h (fun hh => Except.noConfusion hh)
        | exact ihLL _ _ _ _ _ _ _ h
        | (rename_i e0 heq
           exact decErrOk_trans (Except.error.inj h) (ihLI _ _ _ _ _ heq))
    · intro lines i bd opts e h
      rw [decodeListItem.eq_def] at h
      try simp only [] at h
      repeat' split at h
      all_goals first
        | exact absurd h (fun hh => Except.noConfusion hh)
        | exact decErrOk_ref (Except.error.inj h).symm
        | exact ihLR _ _ _ _ _ _ h
        | (rename_i e0 heq
           exact decErrOk_trans (Except.error.inj h)
             (decErrOk_syn (parseArrayHeaderLine_err heq)))
        | (rename_i e0 heq
           exact decErrOk_trans (Except.error.inj h) (ihAH _ _ _ _ _ _ _ heq))
    · intro lines i bd opts ah e h
      rw [decodeListItemRest.eq_def] at h
      try simp only [] at h
      repeat' split at h
      all_goals first
        | exact absurd h (fun hh => Except.noConfusion hh)
        | (rename_i e0 heq
           exact decErrOk_trans (Except.error.inj h) (ihKV _ _ _ _ _ _ heq))
        | (rename_i e0 heq
           exact decErrOk_trans (Except.error.inj h) (ihOFL _ _ _ _ _ _ heq))
        | (rename_i e0 heq
           exact decErrOk_trans (Except.error.inj h)
             (decErrOk_syn (parsePrimitiveToken_err heq)))
    · intro lines j fd opts acc e h
      rw [decodeObjFromListItemLoop.eq_def] at h
      try simp only [] at h
      repeat' split at h
      all_goals first
        | exact absurd h (fun hh => Except.noConfusion hh)
        | exact ihOFL _ _ _ _ _ _ h
        | (rename_i e0 heq
           exact decErrOk_trans (Except.error.inj h) (ihKV _ _ _ _ _ _ heq))

/-- The line scan fails only with a (strict-mode) syntax error. -/
theorem processLines_err : ∀ (raws : List (List Char)) (ind : Nat) (st : Bool)
    (i : Nat) (e : Err), processLines ind st raws i = .error e → e = .synErr
  | [], _, _, _, _, h => by simp [processLines] at h
  | raw :: rest, ind, st, i, e, h => by
    simp only [processLines] at h
    repeat' split at h
    all_goals first
      | exact (Except.error.inj h).symm
      | exact processLines_err rest ind st (i + 1) e (except_map_error h)

/-- `toParsedLines` fails only with a syntax error. -/
theorem toParsedLines_err {src : List Char} {ind : Nat} {st : Bool} {e : Err}
    (h : toParsedLines src ind st = .error e) : e = .synErr := by
  rw [toParsedLines] at h
  split at h
  · simp at h
  · exact processLines_err _ _ _ _ _ h

/-- Zeta-free unfolding of `deserialize`. -/
theorem deserialize_unfold (src : List Char) (opts : Option DecodeOptions) :
    deserialize src opts =
      match toParsedLines src 2 ((opts.map (fun o => o.strict)).getD false) with
      | .error e => .error e
      | .ok scan =>
        if scan.1.length = 0 then .error .emptyInput
        else decodeValueFromLines (decFuel scan.1) scan.1
          ⟨2, (opts.map (fun o => o.strict)).getD false⟩ := rfl

/-- One-step unfolding of the line splitter. -/
theorem splitOnNl_cons (c : Char) (rest : List Char) :
    splitOnNl (c :: rest) =
      if c = '\n' then [] :: splitOnNl rest
      else match splitOnNl rest with
        | [] => [[c]]
        | seg :: segs => (c :: seg) :: segs := rfl

/-- `split` never returns an empty piece list. -/
theorem splitOnNl_ne_nil : ∀ s : List Char, splitOnNl s ≠ [] := by
  intro s
  cases s with
  | nil => simp [splitOnNl]
  | cons c rest =>
    rw [splitOnNl_cons]
    split
    · simp
    · split <;> simp

/-- Every character of the input, bar the separators themselves, lands in
one of the split pieces. -/
theorem splitOnNl_mem : ∀ (s : List Char) (c : Char), c ∈ s →
    c = '\n' ∨ ∃ raw, raw ∈ splitOnNl s ∧ c ∈ raw := by
  intro s
  induction s with
  | nil => intro c hc; cases hc
  | cons d rest ih =>
    intro c hc
    rcases List.mem_cons.mp hc with rfl | hmem
    · by_cases hn : c = '\n'
      · exact Or.inl hn
      · right
        rw [splitOnNl_cons, if_neg hn]
        rcases hr : splitOnNl rest with _ | ⟨seg, segs⟩
        · exact absurd hr (splitOnNl_ne_nil rest)
        · exact ⟨c :: seg, by simp, by simp⟩
    · rcases ih c hmem with hnl | ⟨raw, hraw, hcraw⟩
      · exact Or.inl hnl
      · right
        rw [splitOnNl_cons]
        by_cases hn : d = '\n'
        · rw [if_pos hn]
          exact ⟨raw, List.mem_cons_of_mem _ hraw, hcraw⟩
        · rw [if_neg hn]
          rcases hr : splitOnNl rest with _ | ⟨seg, segs⟩
          · exact absurd hr (splitOnNl_ne_nil rest)
          · rw [hr] at hraw
            rcases List.mem_cons.mp hraw with rfl | hrm
            · exact ⟨d :: raw, by simp, List.mem_cons_of_mem _ hcraw⟩
            · exact ⟨raw, List.mem_cons_of_mem _ hrm, hcraw⟩

/-- A string trims to empty exactly when all its characters are JS
whitespace. -/
theorem jsTrim_eq_nil_iff (l : List Char) : jsTrim l = [] ↔ ∀ c ∈ l, isJsWs c = true := by
  rw [jsTrim, jsTrimEnd, jsTrimStart, List.reverse_eq_nil_iff, List.dropWhile_eq_nil_iff]
  constructor
  · intro h c hc
    by_contra hnc
    have hcd : c ∈ l.dropWhile isJsWs := by
      have hsplit := List.takeWhile_append_dropWhile isJsWs l
      rcases List.mem_append.mp (hsplit.symm ▸ hc) with h1 | h2
      · exact absurd (List.mem_takeWhile_imp h1) hnc
      · exact h2
    exact hnc (h c (List.mem_reverse.mpr hcd))
  · intro h c hc
    exact h c ((List.dropWhile_sublist _).subset (List.mem_reverse.mp hc))

/-- Dropping the length of the matched head is `dropWhile`. -/
theorem drop_takeWhile_len (p : Char → Bool) : ∀ l : List Char,
    l.drop ((l.takeWhile p).length) = l.dropWhile p
  | [] => rfl
  | c :: rest => by
    by_cases hp : p c
    · simp [List.takeWhile_cons, List.dropWhile_cons, hp, drop_takeWhile_len p rest]
    · simp [List.takeWhile_cons, List.dropWhile_cons, hp]

/-- If the scan returns no parsed lines, every raw line was blank. -/
theorem processLines_nil_blank : ∀ (raws : List (List Char)) (ind : Nat) (st : Bool)
    (i : Nat) (bl : List BlankLine),
    processLines ind st raws i = .ok ([], bl) →
    ∀ raw ∈ raws, jsTrim (raw.drop ((raw.takeWhile (fun c => c = ' ')).length)) = []
  | [], _, _, _, _, _ => by intro raw hraw; cases hraw
  | raw0 :: rest, ind, st, i, bl, h => by
    simp only [processLines] at h
    split at h
    · rename_i hblank
      intro raw hraw
      rcases List.mem_cons.mp hraw with rfl | hmem
      · exact hblank
      · cases hrec : processLines ind st rest (i + 1) with
        | error e => rw [hrec] at h; simp [Except.map] at h
        | ok p =>
          rw [hrec] at h
          simp only [Except.map] at h
          have hp : p.1 = [] := congrArg Prod.fst (Except.ok.inj h)
          have hpe : p = ([], p.2) := by rw [← hp]
          exact processLines_nil_blank rest ind st (i + 1) p.2
            (by rw [hrec, hpe]) raw hmem
    · split at h
      · split at h
        · simp at h
        · split at h
          · simp at h
          · cases hrec : processLines ind st rest (i + 1) with
            | error e => rw [hrec] at h; simp [Except.map] at h
            | ok p => rw [hrec] at h; simp [Except.map] at h
      · cases hrec : processLines ind st rest (i + 1) with
        | error e => rw [hrec] at h; simp [Except.map] at h
        | ok p => rw [hrec] at h; simp [Except.map] at h

/-- C9: `deserialize` raises the empty-input error if and only if the
input text is empty or consists solely of (JS) whitespace; on any input
with non-whitespace content that error is never raised — the empty- and
whitespace-only inputs are exactly those whose trimmed text is empty. -/
theorem c9_empty_input_iff (src : List Char) (opts : Option DecodeOptions) :
    (deserialize src opts = .error .emptyInput) ↔ jsTrim src = [] := by
  constructor
  · intro h
    rw [deserialize_unfold] at h
    by_contra hne
    cases htp : toParsedLines src 2 ((opts.map (fun o => o.strict)).getD false) with
    | error e =>
      simp only [htp] at h
      have he : e = Err.synErr := toParsedLines_err htp
      subst he
      exact absurd (Except.error.inj h) (by decide)
    | ok scan =>
      simp only [htp] at h
      split at h
      · rename_i hlen
        rw [toParsedLines, if_neg hne] at htp
        have hs1 : scan.1 = [] := List.length_eq_zero.mp hlen
        have hblanks := processLines_nil_blank (splitOnNl src) 2
          ((opts.map (fun o => o.strict)).getD false) 0 scan.2
          (by rw [htp, show scan = ([], scan.2) from by rw [← hs1]])
        apply hne
        rw [jsTrim_eq_nil_iff]
        intro c hc
        by_contra hcw
        rcases splitOnNl_mem src c hc with hnl | ⟨raw, hraw, hcr⟩
        · exact hcw (by rw [hnl]; decide)
        · have hb := hblanks raw hraw
          rw [jsTrim_eq_nil_iff] at hb
          have hcsp : ¬ c = ' ' := fun hsp => hcw (by rw [hsp]; decide)
          have hcd : c ∈ raw.drop ((raw.takeWhile (fun c => c = ' ')).length) := by
            rw [drop_takeWhile_len]
            have hsplit := List.takeWhile_append_dropWhile
              (fun c : Char => decide (c = ' ')) raw
            rcases List.mem_append.mp (hsplit.symm ▸ hcr) with h1 | h2
            · exact absurd (by simpa using List.mem_takeWhile_imp h1) hcsp
            · exact h2
          exact hcw (hb c hcd)
      · have hd := (decode_errs (decFuel scan.1)).1 scan.1 _ _ h
        simp only [DecErrOk] at hd
        rcases hd with h1 | h1 | h1 | ⟨h1, _⟩ <;> exact absurd h1 (by decide)
  · intro h
    rw [deserialize_unfold, toParsedLines, if_pos h]
    rfl

/-- A loop that merely returns its accumulator respects the length cap. -/
theorem okacc_le {acc l : List HostValue} {i j : Nat} (N : Nat)
    (h : (Except.ok (acc, i) : Except Err (List HostValue × Nat)) = .ok (l, j)) :
    l.length ≤ max acc.length N := by
  have hal : acc = l := congrArg Prod.fst (Except.ok.inj h)
  rw [← hal]
  exact le_max_left _ _

/-- The list-item loop never decodes more than `N` items. -/
theorem decodeListArrayLoop_len : ∀ (fuel : Nat) (lines : List ParsedLine)
    (hd : ArrayHeader) (i d : Nat) (opts : RDecOpts) (acc l : List HostValue) (j : Nat),
    decodeListArrayLoop fuel lines hd i d opts acc = .ok (l, j) →
    l.length ≤ max acc.length hd.length.toNat := by
  intro fuel
  induction fuel with
  | zero =>
    intro lines hd i d opts acc l j h
    rw [decodeListArrayLoop.eq_def] at h
    simp at h
  | succ f ih =>
    intro lines hd i d opts acc l j h
    rw [decodeListArrayLoop.eq_def] at h
    simp only [] at h
    split at h
    · rename_i hlt
      split at h
      · exact okacc_le _ h
      · split at h
        · exact okacc_le _ h
        · split at h
          · split at h
            · simp at h
            · rename_i item j0 heq
              have hrec := ih lines hd j0 d opts (acc ++ [item]) l j h
              simp only [List.length_append, List.length_cons, List.length_nil] at hrec
              have hle : acc.length + 1 ≤ hd.length.toNat := by
                simp only [Int.ofNat_eq_natCast] at hlt
                omega
              omega
          · exact okacc_le _ h
    · exact okacc_le _ h

/-- `decodeListArray` caps the item count at `N`, and in strict mode a
successful decode returns exactly `N` items. -/
theorem decodeListArray_count {fuel : Nat} {lines : List ParsedLine} {hd : ArrayHeader}
    {i bd : Nat} {opts : RDecOpts} {l : List HostValue} {j : Nat}
    (h : decodeListArray fuel lines hd i bd opts = .ok (l, j)) :
    l.length ≤ hd.length.toNat ∧ (opts.strict = true → Int.ofNat l.length = hd.length) := by
  cases fuel with
  | zero => rw [decodeListArray.eq_def] at h; simp at h
  | succ f =>
    rw [decodeListArray.eq_def] at h
    simp only [] at h
    split at h
    · simp at h
    · rename_i items j0 heq
      split at h
      · simp at h
      · rename_i u hassert
        have hil : items = l := congrArg Prod.fst (Except.ok.inj h)
        subst hil
        constructor
        · have hlen := decodeListArrayLoop_len f lines hd i (bd + 1) opts [] items j0 heq
          simpa using hlen
        · intro hs
          rw [assertExpectedCount.eq_def] at hassert
          split at hassert
          · simp at hassert
          · rename_i hcond
            by_contra hne
            exact hcond ⟨hs, hne⟩

/-- The tabular row loop never decodes more than `N` rows. -/
theorem decodeTabularArrayLoop_le : ∀ (fuel : Nat) (lines : List ParsedLine)
    (hd : ArrayHeader) (i rd : Nat) (opts : RDecOpts) (acc l : List HostValue) (j : Nat),
    decodeTabularArrayLoop fuel lines hd i rd opts acc = .ok (l, j) →
    l.length ≤ max acc.length hd.length.toNat := by
  intro fuel
  induction fuel with
  | zero =>
    intro lines hd i rd opts acc l j h
    rw [decodeTabularArrayLoop.eq_def] at h
    simp at h
  | succ f ih =>
    intro lines hd i rd opts acc l j h
    rw [decodeTabularArrayLoop.eq_def] at h
    simp only [] at h
    split at h
    · rename_i hlt
      repeat' split at h
      all_goals first
        | exact okacc_le _ h
        | (rename_i prims heq
           have hrec := ih lines hd (i + 1) rd opts
             (acc ++ [.obj (buildRowObj (hd.fields.getD []) prims)]) l j h
           simp only [List.length_append, List.length_cons, List.length_nil] at hrec
           have hle : acc.length + 1 ≤ hd.length.toNat := by
             simp only [Int.ofNat_eq_natCast] at hlt
             omega
           omega)
        | simp at h
    · exact okacc_le _ h

/-- `decodeTabularArray` caps the row count at `N`, and in strict mode a
successful decode returns exactly `N` rows. -/
theorem decodeTabularArray_count {fuel : Nat} {lines : List ParsedLine} {hd : ArrayHeader}
    {i bd : Nat} {opts : RDecOpts} {l : List HostValue} {j : Nat}
    (h : decodeTabularArray fuel lines hd i bd opts = .ok (l, j)) :
    l.length ≤ hd.length.toNat ∧ (opts.strict = true → Int.ofNat l.length = hd.length) := by
  rw [decodeTabularArray.eq_def] at h
  try simp only [] at h
  split at h
  · simp at h
  · rename_i objs j0 heq
    cases hassert : assertExpectedCount objs.length hd.length opts with
    | error e => rw [hassert] at h; simp [Except.map] at h
    | ok u =>
      rw [hassert] at h
      simp only [Except.map] at h
      have hil : objs = l := congrArg Prod.fst (Except.ok.inj h)
      subst hil
      constructor
      · have hlen := decodeTabularArrayLoop_le fuel lines hd i (bd + 1) opts [] objs j0 heq
        simpa using hlen
      · intro hs
        rw [assertExpectedCount.eq_def] at hassert
        split at hassert
        · simp at hassert
        · rename_i hcond
          by_contra hne
          exact hcond ⟨hs, hne⟩

/-- In strict mode, an inline primitive array raises the count mismatch
exactly when the number of parsed values differs from the declared `N`. -/
theorem decodeInlinePrimitiveArray_count {hd : ArrayHeader} {s : List Char}
    {opts : RDecOpts} (hs : opts.strict = true) (hne : jsTrim s ≠ [])
    {l : List HostValue}
    (hmap : mapRowValuesToPrimitives (parseDelimitedValues s hd.delimiter) = .ok l) :
    (decodeInlinePrimitiveArray hd s opts = .error .countMismatch ↔
      Int.ofNat l.length ≠ hd.length) := by
  rw [decodeInlinePrimitiveArray.eq_def, if_neg hne]
  simp only [hmap, except_ok_bind]
  by_cases hc : Int.ofNat l.length ≠ hd.length
  · rw [assertExpectedCount.eq_def, if_pos ⟨hs, hc⟩]
    exact iff_of_true rfl hc
  · rw [assertExpectedCount.eq_def, if_neg (fun hcc => hc hcc.2)]
    exact iff_of_false (fun hp => Except.noConfusion hp) (fun hno => hc hno)

/-- C2 (amended): with `strict = false`, `deserialize` never raises the
count mismatch; in strict mode, an inline body raises it exactly when the
parsed value count differs from the declared `N`, and the list and tabular
bodies never decode more than `N` elements and, on success in strict mode,
decode exactly `N` (so strict mode enforces exactly `N` elements in every
body form that completes — but a body with more than `N` available
elements stops consuming at `N` instead of raising, see the
counterexample). -/
theorem c2_amended_strict_counts :
    (∀ (src : List Char) (opts : Option DecodeOptions),
        (opts.map (fun o => o.strict)).getD false = false →
        deserialize src opts ≠ .error .countMismatch) ∧
    (∀ (hd : ArrayHeader) (s : List Char) (opts : RDecOpts) (l : List HostValue),
        opts.strict = true → jsTrim s ≠ [] →
        mapRowValuesToPrimitives (parseDelimitedValues s hd.delimiter) = .ok l →
        (decodeInlinePrimitiveArray hd s opts = .error .countMismatch ↔
          Int.ofNat l.length ≠ hd.length)) ∧
    (∀ (fuel : Nat) (lines : List ParsedLine) (hd : ArrayHeader) (i bd : Nat)
        (opts : RDecOpts) (l : List HostValue) (j : Nat),
        decodeListArray fuel lines hd i bd opts = .ok (l, j) →
        l.length ≤ hd.length.toNat ∧
          (opts.strict = true → Int.ofNat l.length = hd.length)) ∧
    (∀ (fuel : Nat) (lines : List ParsedLine) (hd : ArrayHeader) (i bd : Nat)
        (opts : RDecOpts) (l : List HostValue) (j : Nat),
        decodeTabularArray fuel lines hd i bd opts = .ok (l, j) →
        l.length ≤ hd.length.toNat ∧
          (opts.strict = true → Int.ofNat l.length = hd.length)) := by
  refine ⟨?_, ?_, ?_, ?_⟩
  · intro src opts hglobal h
    rw [deserialize_unfold] at h
    cases htp : toParsedLines src 2 ((opts.map (fun o => o.strict)).getD false) with
    | error e =>
      simp only [htp] at h
      have h1 : e = Err.countMismatch := Except.error.inj h
      rw [toParsedLines_err htp] at h1
      exact absurd h1 (by decide)
    | ok scan =>
      simp only [htp] at h
      split at h
      · exact absurd (Except.error.inj h) (by decide)
      · have hde := (decode_errs (decFuel scan.1)).1 scan.1 _ _ h
        simp only [DecErrOk, hglobal] at hde
        rcases hde with h1 | h1 | h1 | ⟨_, h2⟩
        · exact absurd h1 (by decide)
        · exact absurd h1 (by decide)
        · exact absurd h1 (by decide)
        · exact absurd h2 (by decide)
  · intro hd s opts l hs hne hmap
    exact decodeInlinePrimitiveArray_count hs hne hmap
  · intro fuel lines hd i bd opts l j h
    exact decodeListArray_count h
  · intro fuel lines hd i bd opts l j h
    exact decodeTabularArray_count h

/-- C2 witness: the parts of the amended statement applied at concrete
inputs — a non-strict decode of an over-declared inline header raises no
count error; a strict inline body of 2 values under `[3]` raises it; a
one-item list body under `[2]` and a one-row tabular body under `[1]`
decode within their caps (the latter, strict, with the exact count). -/
theorem c2_amended_strict_counts_witness :
    deserialize ("[5]: a,b".data) none ≠ .error .countMismatch ∧
    (decodeInlinePrimitiveArray ⟨none, 3, ',', none, false⟩ ("a,b".data) ⟨2, true⟩
        = .error .countMismatch ↔
      Int.ofNat (([HostValue.str ['a'], HostValue.str ['b']] : List HostValue).length)
        ≠ 3) ∧
    (([HostValue.str ['a']] : List HostValue).length ≤ (2 : Int).toNat ∧
      ((⟨2, false⟩ : RDecOpts).strict = true →
        Int.ofNat (([HostValue.str ['a']] : List HostValue).length) = 2)) ∧
    (([HostValue.obj [(['k'], HostValue.num (.finite 1))]] : List HostValue).length
        ≤ (1 : Int).toNat ∧
      ((⟨2, true⟩ : RDecOpts).strict = true →
        Int.ofNat (([HostValue.obj [(['k'], HostValue.num (.finite 1))]] :
          List HostValue).length) = 1)) :=
  ⟨c2_amended_strict_counts.1 ("[5]: a,b".data) none rfl,
   c2_amended_strict_counts.2.1 ⟨none, 3, ',', none, false⟩ ("a,b".data) ⟨2, true⟩
     [HostValue.str ['a'], HostValue.str ['b']] rfl (by decide)
     (by with_unfolding_all rfl),
   c2_amended_strict_counts.2.2.1 4 [⟨"  - a".data, 2, "- a".data, 1, 1⟩]
     ⟨none, 2, ',', none, false⟩ 0 0 ⟨2, false⟩ [HostValue.str ['a']] 1
     (by with_unfolding_all rfl),
   c2_amended_strict_counts.2.2.2 4 [⟨"  1".data, 2, "1".data, 1, 1⟩]
     ⟨none, 1, ',', some [['k']], false⟩ 0 0 ⟨2, true⟩
     [HostValue.obj [(['k'], HostValue.num (.finite 1))]] 1
     (by with_unfolding_all rfl)⟩

end Toon
